import Mathlib

/-!
Verification of the Imager editor (`imager/a6editor.py`): a shallow embedding of the
pixel-grid data model and of the editor operations (steganographic encode/decode,
geometric transforms, pixellation, jail bars, vignette), together with theorems
settling the specified properties.

Python arithmetic conventions used throughout: Python `//` and `%` on integers are
floor division and sign-of-divisor remainder, which coincide with Lean's `/` and `%`
on `ℤ` (`Int.ediv` / `Int.emod`); all divisors appearing in the code are positive.
-/

namespace Imager

/-- A pixel: an (r, g, b) triple. The source stores plain Python int triples, so
channels are modelled as unbounded integers (well-formed images keep them in
[0, 255], but e.g. `vignette` computes new values by arithmetic). -/
abbrev RGB := ℤ × ℤ × ℤ

/-- Modelled from the spec: the `PixelGrid` (`a6image.Image`) collaborator is not in
`src/`, only its interface is described (spec §3, §6): a mutable 2-D grid of RGB
triples addressable by `(row, col)` and by flat index `row*width+col` (row-major),
with `getWidth`, `getHeight`, `getLength`, `getPixel`, `setPixel`, `getFlatPixel`,
`setFlatPixel`, `setWidth`, `copy`. It is modelled as a width plus a row-major pixel
list; the height is derived (`length / width`), so a width mutation resizes the grid
as the spec's invariant `len(pixels) == width*height` demands. -/
structure Image where
  width : ℕ
  pixels : List RGB
  deriving DecidableEq

/-- Modelled from the spec: grid accessor `width()`. -/
def getWidth (g : Image) : ℕ := g.width

/-- Modelled from the spec: grid accessor `height()`; derived as `length / width` so
that the invariant `length = width * height` holds for well-formed grids. -/
def getHeight (g : Image) : ℕ := g.pixels.length / g.width

/-- Modelled from the spec: grid accessor `length()` (total pixel count). -/
def getLength (g : Image) : ℕ := g.pixels.length

/-- Modelled from the spec: `getFlatPixel(pos)`. The source asserts
`0 <= pos < length`; all reachable uses in the claims are in bounds, and the model
returns a default pixel out of bounds. -/
def getFlatPixel (g : Image) (pos : ℕ) : RGB := g.pixels.getD pos (0, 0, 0)

/-- Modelled from the spec: `setFlatPixel(pos, rgb)`. The source asserts
`0 <= pos < length`; `List.set` is a no-op out of bounds, and all reachable uses in
the claims are in bounds. -/
def setFlatPixel (g : Image) (pos : ℕ) (p : RGB) : Image :=
  { g with pixels := g.pixels.set pos p }

/-- Modelled from the spec: `getPixel(row, col)` = flat pixel `row*width+col`.
The source asserts `row < height` and `col < width`; where the source relies on that
assertion failing (the `try/except` in `_avgRGB`), the model guards explicitly. -/
def getPixel (g : Image) (row col : ℕ) : RGB := getFlatPixel g (row * g.width + col)

/-- Modelled from the spec: `setPixel(row, col, rgb)` = flat write at `row*width+col`
(same bounds assertions as `getPixel`). -/
def setPixel (g : Image) (row col : ℕ) (p : RGB) : Image :=
  setFlatPixel g (row * g.width + col) p

/-- Modelled from the spec: `setWidth` mutates the width; the derived height then
obeys the reallocation invariant (`new_height = length / new_width`). -/
def setWidth (g : Image) (w : ℕ) : Image := { g with width := w }

/-! ### The steganographic codec (`encode` / `decode` and their helpers) -/

/-- Python exceptions that `decode` and its helpers can raise. -/
inductive PyErr where
  | valueError
  | indexError
  | assertionError
  deriving DecidableEq

/-- Result of a Python call: a value, or a raised exception. -/
inductive PyResult (α : Type) where
  | ok : α → PyResult α
  | error : PyErr → PyResult α
  deriving DecidableEq

/-- Embeds `Editor._is_ASCII`. The source's loop returns inside its first iteration
(`else: return True` is attached to the range test), so only the FIRST element is
ever checked, and an empty list falls off the loop returning Python `None`
(modelled as `none`). -/
def is_ASCII (thelist : List ℤ) : Option Bool :=
  match thelist with
  | [] => none
  | x :: _ => some (decide (0 ≤ x ∧ x ≤ 255))

/-- Embeds `Editor._translate_ASCII`. It asserts `_is_ASCII(code) == True`
(an `AssertionError` when the list is empty or its first element is out of
[0, 255]) and otherwise builds the string of `chr` values; since `chr`/`ord` are
inverse on the code points involved, the model keeps the code list itself. -/
def translate_ASCII (code : List ℤ) : PyResult (List ℤ) :=
  if is_ASCII code = some true then .ok code else .error .assertionError

/-- Is the character code an ASCII decimal digit (`0`-`9`)? -/
def isPyDigit (c : ℤ) : Bool := 48 ≤ c ∧ c ≤ 57

/-- Is the character code whitespace for Python's `int()` parsing (ASCII whitespace,
the file/group/record/unit separators, NEL and NBSP — the isspace code points below
the 0-999 range of channel-digit numbers)? -/
def isPySpace (c : ℤ) : Bool :=
  c = 32 ∨ (9 ≤ c ∧ c ≤ 13) ∨ (28 ≤ c ∧ c ≤ 31) ∨ c = 133 ∨ c = 160

/-- Digit run for Python `int()`: digits optionally separated by single underscores
(`_` must sit between two digits). Returns the digit values, or `none` on a
malformed run. The caller guarantees the run starts with a digit. -/
def parseDigitRun : List ℤ → Option (List ℤ)
  | [] => some []
  | c :: rest =>
    if isPyDigit c then (parseDigitRun rest).map (fun ds => (c - 48) :: ds)
    else if c = 95 then
      match rest with
      | [] => none
      | c2 :: _ => if isPyDigit c2 then parseDigitRun rest else none
    else none

/-- Value of a most-significant-first digit list. -/
def digitsVal (ds : List ℤ) : ℤ := ds.foldl (fun a d => a * 10 + d) 0

/-- Embeds `Editor._Code_to_Int`: Python `int(string)` semantics on a string given
as its list of character codes — optional surrounding whitespace, an optional
single sign, then a digit run. `none` models the `ValueError` branch in which the
source returns Python `False`. -/
def code_to_int (string : List ℤ) : Option ℤ :=
  let t := ((string.dropWhile isPySpace).reverse.dropWhile isPySpace).reverse
  match t with
  | [] => none
  | c :: rest =>
    let sd : ℤ × List ℤ :=
      if c = 43 then (1, rest) else if c = 45 then (-1, rest) else (1, t)
    match sd.2 with
    | [] => none
    | d :: _ =>
      if isPyDigit d then (parseDigitRun sd.2).map (fun ds => sd.1 * digitsVal ds)
      else none

/-- Embeds `Editor._isMarker`. Faithful to the source's control flow, including:
the buggy first-element-only `_is_ASCII` test; `rest.index(126)` raising
`ValueError` when no `~` (126) occurs after position 2; `thelist[pos+1]` raising
`IndexError` past the end; `_translate_ASCII` raising `AssertionError` on an empty
or out-of-range `between`; and the Python pitfall `_Code_to_Int(number) == False`
being true for the parsed integer `0` (so a zero length is rejected). -/
def isMarker (thelist : List ℤ) : PyResult Bool :=
  if is_ASCII thelist = some false then .ok false
  else if thelist.take 2 ≠ [125, 126] then .ok false
  else
    match (thelist.drop 2).findIdx? (· = 126) with
    | none => .error .valueError
    | some i =>
      let pos := i + 2
      match thelist[pos + 1]? with
      | none => .error .indexError
      | some v =>
        if v ≠ 123 then .ok false
        else
          let between := (thelist.drop 2).take (pos - 2)
          if between.length > 6 then .ok false
          else
            match translate_ASCII between with
            | .error e => .error e
            | .ok number =>
              match code_to_int number with
              | none => .ok false
              | some n => if n = 0 then .ok false else .ok true

/-- Embeds `Editor._getLengthCode`: asserts `_is_ASCII(thelist) == True`, finds the
first 126 after position 2, and parses the digits before it; `some n` is a parsed
integer, `none` is the source returning Python `False` out of `_Code_to_Int`. -/
def getLengthCode (thelist : List ℤ) : PyResult (Option ℤ) :=
  if is_ASCII thelist ≠ some true then .error .assertionError
  else
    match (thelist.drop 2).findIdx? (· = 126) with
    | none => .error .valueError
    | some pos =>
      match translate_ASCII ((thelist.drop 2).take pos) with
      | .error e => .error e
      | .ok string => .ok (code_to_int string)

/-- ASCII codes of `str(n)` for a natural number (fuel-based so that the kernel can
evaluate it): most-significant-first decimal digits, `"0"` for zero. -/
def decimalCodesAux : ℕ → ℕ → List ℤ
  | 0, _ => []
  | fuel + 1, n =>
    if n = 0 then [] else decimalCodesAux fuel (n / 10) ++ [(n % 10 : ℤ) + 48]

/-- ASCII codes of `str(n)`: models `self._text_to_ASCII(str(len(text)))`. -/
def decimalDigitCodes (n : ℕ) : List ℤ :=
  if n = 0 then [48] else decimalCodesAux n n

/-- Length of `str(n)` for an integer (digit count, plus one for a minus sign). -/
def intStrLen (n : ℤ) : ℕ :=
  if n < 0 then 1 + (decimalDigitCodes n.natAbs).length
  else (decimalDigitCodes n.toNat).length

/-- Length of `str(length_text)` in `decode`, where `length_text` is either an
integer or Python `False` (whose `str` is `"False"`, of length 5). -/
def pyStrLen : Option ℤ → ℕ
  | none => 5
  | some n => intStrLen n

/-- Python list slice `l[a:b]` with a non-negative start and a possibly negative
stop (a negative stop counts from the end; out-of-range stops are clamped). -/
def pySlice (l : List ℤ) (a : ℕ) (b : ℤ) : List ℤ :=
  let stop : ℕ := if b < 0 then ((l.length : ℤ) + b).toNat else b.toNat
  (l.take stop).drop a

/-- Embeds `Editor._decode_pixel`: the channel-digit number
`(red % 10)*100 + (green % 10)*10 + blue % 10` hidden in pixel `pos`. -/
def decode_pixel (g : Image) (pos : ℕ) : ℤ :=
  let rgb := getFlatPixel g pos
  (rgb.1 % 10) * 100 + (rgb.2.1 % 10) * 10 + rgb.2.2 % 10

/-- Embeds `Editor._pixels_to_ASCII` in state-passing style: the loop reads every
pixel in flat order through `getFlatPixel` (via `_decode_pixel`) and appends the
channel-digit number; the grid is threaded through unchanged since the source
calls no setter. -/
def pixels_to_ASCIIS (image : Image) : List ℤ × Image :=
  (List.range (getLength image)).foldl
    (fun acc x => (acc.1 ++ [decode_pixel acc.2 x], acc.2)) ([], image)

/-- The list of channel-digit numbers of all pixels, in flat order. -/
def pixels_to_ASCII (image : Image) : List ℤ := (pixels_to_ASCIIS image).1

/-- The pure part of `Editor.decode` after the pixel scan: validate the marker,
read the length, and slice out and translate the payload. `ok none` models the
source's `return None`; exceptions propagate. -/
def decodeFromCodes (message_code : List ℤ) : PyResult (Option (List ℤ)) :=
  match isMarker message_code with
  | .error e => .error e
  | .ok false => .ok none
  | .ok true =>
    match getLengthCode message_code with
    | .error e => .error e
    | .ok length_text =>
      let charac_length := pyStrLen length_text
      let start := 4 + charac_length
      let stop : ℤ := (start : ℤ) + (match length_text with | none => 0 | some n => n)
      let text_code := pySlice message_code start stop
      match translate_ASCII text_code with
      | .error e => .error e
      | .ok s => .ok (some s)

/-- Embeds `Editor.decode`, threading the grid state: the only grid access is the
read-only pixel scan of `_pixels_to_ASCII`. -/
def decodeS (g : Image) : PyResult (Option (List ℤ)) × Image :=
  let mc := pixels_to_ASCIIS g
  (decodeFromCodes mc.1, mc.2)

/-- The value returned by `Editor.decode` (`ok (some text)` a recovered message as
character codes, `ok none` the source's `None`, `error` a raised exception). -/
def decode (g : Image) : PyResult (Option (List ℤ)) := (decodeS g).1

/-- The channel-update snippet repeated for red, green and blue in
`Editor._encode_pixel`: `channel = (channel//10)*10 + digit; if channel > 255:
channel -= 10`. -/
def encodeChannel (channel digit : ℤ) : ℤ :=
  let v := (channel / 10) * 10 + digit
  if v > 255 then v - 10 else v

/-- Embeds `Editor._encode_pixel`: split the code into hundreds/tens/ones digits
and store them in the ones place of red/green/blue. The source asserts
`0 <= ASCII <= 255` (an `AssertionError` otherwise — only reachable when the text
has character codes above 255, since the buggy `_is_ASCII` check in
`_ASCII_encode` only inspects the first element, `125`). -/
def encode_pixel (g : Image) (pos : ℕ) (ascii : ℤ) : Image :=
  let a := ascii / 100
  let b := (ascii / 10) % 10
  let c := ascii % 10
  let rgb := getFlatPixel g pos
  setFlatPixel g pos (encodeChannel rgb.1 a, encodeChannel rgb.2.1 b, encodeChannel rgb.2.2 c)

/-- The pixel value written by `_encode_pixel`: each channel's ones digit replaced
by the corresponding decimal digit of the code. -/
def encodeTriple (rgb : RGB) (ascii : ℤ) : RGB :=
  (encodeChannel rgb.1 (ascii / 100), encodeChannel rgb.2.1 (ascii / 10 % 10),
    encodeChannel rgb.2.2 (ascii % 10))

/-- Embeds `Editor._ASCII_encode`: hide the x-th code in pixel x. -/
def ASCII_encode (g : Image) (thelist : List ℤ) : Image :=
  (List.range thelist.length).foldl (fun cur x => encode_pixel cur x (thelist.getD x 0)) g

/-- Embeds `Editor.encode` with the text given as its list of character codes:
reject texts longer than 999999 or frames (`}~` + length digits + `~{` + text)
longer than the pixel count, returning `false` with the grid untouched; otherwise
write the frame into the first pixels and return `true`. -/
def encode (g : Image) (text : List ℤ) : Bool × Image :=
  if text.length > 999999 then (false, g)
  else
    let string := decimalDigitCodes text.length
    let character_length := string.length
    let characters_total := character_length + 4 + text.length
    let maximum := getLength g
    if characters_total > maximum then (false, g)
    else
      let marker := [(125 : ℤ), 126] ++ string ++ [126, 123]
      (true, ASCII_encode g (marker ++ text))

/-! ### Geometric transforms (`transpose`, `rotateRight`) -/

/-- The doubly nested write loop of `transpose` / `rotateRight` / `rotateLeft`:
`for row in range(current.getHeight()): for col in range(current.getWidth()):
current.setPixel(row, col, f(row, col))`, where `f` reads from the pre-mutation
snapshot (`original = current.copy()`), so the values written never depend on the
grid being overwritten. -/
def nestedWrite (current : Image) (rows : ℕ) (f : ℕ → ℕ → RGB) : Image :=
  (List.range rows).foldl
    (fun cur row =>
      (List.range (getWidth cur)).foldl
        (fun cur2 col => setPixel cur2 row col (f row col)) cur)
    current

/-- Embeds `Editor.transpose`: snapshot the grid, set the width to the old height
(the derived height then becomes the old width), and write
`original.getPixel(col, row)` into every new `(row, col)`. -/
def transpose (g : Image) : Image :=
  let current := setWidth g (getHeight g)
  nestedWrite current (getHeight current) (fun row col => getPixel g col row)

/-- Embeds `Editor.rotateRight`: snapshot, resize as in `transpose`, and write
`original.getPixel(original.getHeight()-col-1, row)` into every new `(row, col)`. -/
def rotateRight (g : Image) : Image :=
  let current := setWidth g (getHeight g)
  nestedWrite current (getHeight current) (fun row col => getPixel g (getHeight g - col - 1) row)

/-! ### Vignette -/

/-- Python `int(x)` on a real value: truncation toward zero. -/
def ratTrunc (q : ℚ) : ℤ := if 0 ≤ q then ⌊q⌋ else -⌊-q⌋

/-- The darkening factor of `Editor.vignette` at pixel `(x, k)`:
`1 - dist2/hfd2` with `dist2 = (k - w/2)² + (x - h/2)²` and
`hfd2 = ((0.5)*sqrt(w²+h²))²`, modelled exactly as `(w²+h²)/4`. The source
computes `hfd2` in floating point through a square root, so its value differs
from the exact rational by at most a relative epsilon; the claims are settled
against the exact real-arithmetic value. -/
def vignetteFormula (w h x k : ℕ) : ℚ :=
  1 - (((k : ℚ) - w / 2) ^ 2 + ((x : ℚ) - h / 2) ^ 2) / (((w : ℚ) ^ 2 + (h : ℚ) ^ 2) / 4)

/-- Embeds `Editor.vignette`: for every pixel in row-major loop order, read the
current pixel, multiply each channel by the darkening factor, truncate with
`int(...)`, and write the result back (each pixel is read before only itself is
overwritten). -/
def vignette (g : Image) : Image :=
  let w := getWidth g
  let h := getHeight g
  (List.range h).foldl
    (fun cur x =>
      (List.range w).foldl
        (fun cur2 k =>
          let rgb := getPixel cur2 x k
          let formula := vignetteFormula w h x k
          setPixel cur2 x k
            (ratTrunc (rgb.1 * formula), ratTrunc (rgb.2.1 * formula),
              ratTrunc (rgb.2.2 * formula)))
        cur)
    g

/-! ### Pixellation -/

/-- Embeds `Editor._avgRGB`. Read phase: sum the channels and count the pixels of
the `step × step` block at corner `(x, y)`, skipping out-of-bounds cells (the
source relies on `getPixel`'s bounds assertion and a `try/except AssertionError`
per cell; the model guards explicitly). Then form the averaged pixel with
`int(sum/count)` — float division then truncation, modelled as exact rational
division then truncation toward zero (`ZeroDivisionError` on an empty block is
unreachable from `pixellate`, whose corners are always in bounds). Write phase:
overwrite every in-bounds cell of the block with the averaged pixel (again
`try/except` in the source, an explicit guard here). The whole average is computed
before the first write. -/
def avgRGB (current : Image) (x y step : ℕ) : Image :=
  let w := getWidth current
  let h := getHeight current
  let s :=
    (List.range' x step 1).foldl
      (fun acc k =>
        (List.range' y step 1).foldl
          (fun acc2 j =>
            if k < h ∧ j < w then
              (acc2.1 + (getPixel current k j).1, acc2.2.1 + (getPixel current k j).2.1,
                acc2.2.2.1 + (getPixel current k j).2.2, acc2.2.2.2 + 1)
            else acc2)
          acc)
      ((0, 0, 0, 0) : ℤ × ℤ × ℤ × ℤ)
  let pixel : RGB :=
    (ratTrunc ((s.1 : ℚ) / (s.2.2.2 : ℚ)), ratTrunc ((s.2.1 : ℚ) / (s.2.2.2 : ℚ)),
      ratTrunc ((s.2.2.1 : ℚ) / (s.2.2.2 : ℚ)))
  (List.range' x step 1).foldl
    (fun cur k =>
      (List.range' y step 1).foldl
        (fun cur2 j => if k < h ∧ j < w then setPixel cur2 k j pixel else cur2)
        cur)
    current

/-- Embeds `Editor.pixellate`: `for x in range(0, h, step): for y in range(0, w,
step): _avgRGB(current, x, y, step)`. The source asserts `step > 0`; Python
`range(0, n, step)` has `(n + step - 1)/step` elements. -/
def pixellate (g : Image) (step : ℕ) : Image :=
  let w := getWidth g
  let h := getHeight g
  (List.range' 0 ((h + step - 1) / step) step).foldl
    (fun cur x =>
      (List.range' 0 ((w + step - 1) / step) step).foldl
        (fun cur2 y => avgRGB cur2 x y step) cur)
    g

/-- The block average the claims describe: the per-channel `int`-truncated mean
over exactly the in-bounds pixels of the block with top-left corner `(x, y)` —
rows `[x, min(x+step, height))`, columns `[y, min(y+step, width))` — read from
the given (original) grid. -/
def blockAvg (g : Image) (x y step : ℕ) : RGB :=
  let w := getWidth g
  let h := getHeight g
  let rows := List.range' x (min (x + step) h - x) 1
  let cols := List.range' y (min (y + step) w - y) 1
  let count : ℤ := (rows.length * cols.length : ℕ)
  let red := (rows.flatMap (fun k => cols.map (fun j => (getPixel g k j).1))).sum
  let green := (rows.flatMap (fun k => cols.map (fun j => (getPixel g k j).2.1))).sum
  let blue := (rows.flatMap (fun k => cols.map (fun j => (getPixel g k j).2.2))).sum
  (ratTrunc ((red : ℚ) / (count : ℚ)), ratTrunc ((green : ℚ) / (count : ℚ)),
    ratTrunc ((blue : ℚ) / (count : ℚ)))

/-! ### Jail bars -/

/-- Writing a fixed pixel at a list of flat positions in order: the common shape of
the bar-drawing loops, used to characterize them. -/
def setMany (g : Image) (idxs : List ℕ) (p : RGB) : Image :=
  idxs.foldl (fun cur i => setFlatPixel cur i p) g

/-- Embeds `Editor._drawHBar`: a 3-pixel-tall horizontal bar — for every column,
overwrite rows `row`, `row+1`, `row+2` with the bar color. The source's
precondition is `0 <= row` and `row+2 < height`. -/
def drawHBar (g : Image) (row : ℕ) (pixel : RGB) : Image :=
  (List.range (getWidth g)).foldl
    (fun cur col =>
      setPixel (setPixel (setPixel cur row col pixel) (row + 1) col pixel) (row + 2) col pixel)
    g

/-- Embeds `Editor._drawVBar`: a 4-pixel-wide vertical bar — for every row,
overwrite columns `col`, `col+1`, `col+2`, `col+3` with the bar color. The
source's precondition is `0 <= col` and `col+3 < width`. -/
def drawVBar (g : Image) (col : ℕ) (pixel : RGB) : Image :=
  (List.range (getHeight g)).foldl
    (fun cur row =>
      setPixel (setPixel (setPixel (setPixel cur row col pixel) row (col + 1) pixel)
        row (col + 2) pixel) row (col + 3) pixel)
    g

/-- The columns at which `jail` starts its vertical bars: `int(x*dist)` for `x` in
`range(n+3)`, with `n = (w-8)//50` and `dist = (w-4)/(n+2)`. The source computes
`dist` in IEEE double precision; it is modelled as the exact rational, which
coincides with the double computation at the width used in the claims (at width
120, `dist = 29` exactly and every product is a small integer, all exactly
representable). -/
def jailBarCols (w : ℕ) : List ℤ :=
  let n : ℤ := ((w : ℤ) - 8) / 50
  let dist : ℚ := ((w : ℚ) - 4) / ((n : ℚ) + 2)
  (List.range (n + 3).toNat).map (fun x => ratTrunc ((x : ℚ) * dist))

/-- Embeds `Editor.jail`: red (255,0,0) 3-row horizontal bars at rows 0 and `h-3`,
then a 4-column vertical bar at each computed column. A negative computed column
(only possible for widths below 4) would raise in the source through `setPixel`'s
bounds assertion; the model clamps it with `toNat`, and the claims are settled at
width 120, where every computed column is nonnegative. -/
def jail (g : Image) : Image :=
  let pixel : RGB := (255, 0, 0)
  let g1 := drawHBar g 0 pixel
  let g2 := drawHBar g1 (getHeight g - 3) pixel
  (jailBarCols (getWidth g)).foldl (fun cur x => drawVBar cur x.toNat pixel) g2

/-! ### Concrete grids used in the claim evaluations -/

/-- A width-120, height-6 grid of black pixels, for the jail witness. -/
def jailGrid : Image := ⟨120, List.replicate 720 ((0 : ℤ), (0 : ℤ), (0 : ℤ))⟩

/-- A 3×3 grid of distinct pixels, for the pixellate witness. -/
def pixGrid : Image :=
  ⟨3, [((10 : ℤ), (20 : ℤ), (30 : ℤ)), (40, 50, 60), (70, 80, 90),
    (15, 25, 35), (45, 55, 65), (75, 85, 95),
    (12, 22, 32), (42, 52, 62), (72, 82, 92)]⟩

/-- A non-square 2-wide, 1-tall grid: corner pixel white, the other a mixed color. -/
def vigGrid : Image := ⟨2, [((255 : ℤ), (255 : ℤ), (255 : ℤ)), (200, 100, 50)]⟩

/-- A 5-pixel grid (width 5, height 1) of black pixels. -/
def emptyMsgGrid : Image := ⟨5, List.replicate 5 ((0 : ℤ), (0 : ℤ), (0 : ℤ))⟩

/-- A 3-pixel grid whose channel-digit numbers are 125 (`}`), 126 (`~`), 65 (`A`):
the first two bytes match the marker prefix but no closing `~{` follows. -/
def noCloseMarkerGrid : Image :=
  ⟨3, [((1 : ℤ), (2 : ℤ), (5 : ℤ)), (1, 2, 6), (0, 6, 5)]⟩

/-- A 3-wide, 2-tall grid of distinct pixels, for the transpose witness. -/
def geomGrid : Image :=
  ⟨3, [((1 : ℤ), (2 : ℤ), (3 : ℤ)), (4, 5, 6), (7, 8, 9),
    (10, 11, 12), (13, 14, 15), (16, 17, 18)]⟩

/-- A 3-wide, 2-tall grid of distinct pixels, for the rotation witness. -/
def rotGrid : Image :=
  ⟨3, [((21 : ℤ), (22 : ℤ), (23 : ℤ)), (24, 25, 26), (27, 28, 29),
    (30, 31, 32), (33, 34, 35), (36, 37, 38)]⟩

/-! ## Theorems -/

/-! ### Basic grid lemmas -/

theorem Image.eq_of (g1 g2 : Image) (hw : g1.width = g2.width)
    (hp : g1.pixels = g2.pixels) : g1 = g2 := by
  cases g1; cases g2; simp_all

@[simp] theorem width_setFlatPixel (g : Image) (pos : ℕ) (p : RGB) :
    (setFlatPixel g pos p).width = g.width := rfl

@[simp] theorem length_setFlatPixel (g : Image) (pos : ℕ) (p : RGB) :
    (setFlatPixel g pos p).pixels.length = g.pixels.length := by
  simp [setFlatPixel]

@[simp] theorem width_setPixel (g : Image) (r c : ℕ) (p : RGB) :
    (setPixel g r c p).width = g.width := rfl

@[simp] theorem length_setPixel (g : Image) (r c : ℕ) (p : RGB) :
    (setPixel g r c p).pixels.length = g.pixels.length := by
  simp [setPixel]

theorem getFlat_setFlat (g : Image) (j i : ℕ) (p : RGB) :
    getFlatPixel (setFlatPixel g j p) i =
      if i = j ∧ j < g.pixels.length then p else getFlatPixel g i := by
  rcases Decidable.em (i = j ∧ j < g.pixels.length) with h | h
  · obtain ⟨rfl, hlt⟩ := h
    simp [getFlatPixel, setFlatPixel, List.getD_eq_getElem?_getD,
      List.getElem?_set_self, hlt]
  · rw [if_neg h]
    rcases Decidable.em (i = j) with rfl | hne
    · have hge : g.pixels.length ≤ i := by
        by_contra hc; exact h ⟨rfl, by omega⟩
      simp [getFlatPixel, setFlatPixel, List.set_eq_of_length_le hge]
    · simp [getFlatPixel, setFlatPixel, List.getD_eq_getElem?_getD,
        List.getElem?_set_ne (fun hc => hne hc.symm)]

theorem getFlatPixel_eq_getElem (g : Image) (i : ℕ) (h : i < g.pixels.length) :
    getFlatPixel g i = g.pixels[i] := by
  simp [getFlatPixel, List.getD_eq_getElem?_getD, List.getElem?_eq_getElem h]

/-- Decompose a flat index `a * w + b` with `b < w` back into row `a`, column `b`. -/
theorem flat_decomp (w : ℕ) (h0 : 0 < w) (a b : ℕ) (hb : b < w) :
    (a * w + b) / w = a ∧ (a * w + b) % w = b := by
  constructor
  · rw [mul_comm, Nat.mul_add_div h0, Nat.div_eq_of_lt hb, Nat.add_zero]
  · rw [mul_comm, Nat.mul_add_mod, Nat.mod_eq_of_lt hb]

/-! ### Claims C1, C2, C3, C7 -/

/-- C1 (code bug): the round-trip claim fails at `text = ""`. On a 5-pixel grid,
`encode("")` succeeds (returns `True`) and writes the frame `}~0~{` (codes
125, 126, 48, 126, 123), but `decode()` then returns `None` instead of `""`:
`_isMarker` tests `self._Code_to_Int(number) == False`, and in Python `0 == False`
is true, so the parsed length `0` is treated as a failed parse and the valid
marker is rejected. -/
theorem C1_empty_text_roundtrip_fails :
    (encode emptyMsgGrid []).1 = true ∧
    pixels_to_ASCII (encode emptyMsgGrid []).2 = [125, 126, 48, 126, 123] ∧
    decode (encode emptyMsgGrid []).2 = .ok none := by decide

/-- C2: when the text cannot fit — more than 999999 characters, or a frame of
`4 + digitCount(len(text)) + len(text)` characters exceeding the grid's pixel
count — `encode` returns failure and returns the grid exactly as it was (both
`return False` statements run before any pixel write). -/
theorem C2_encode_capacity_failure_atomic (g : Image) (text : List ℤ)
    (h : 999999 < text.length ∨
      getLength g < 4 + (decimalDigitCodes text.length).length + text.length) :
    encode g text = (false, g) := by
  rcases Decidable.em (999999 < text.length) with h1 | h1
  · simp only [encode]
    rw [if_pos (show text.length > 999999 from h1)]
  · have h2 : getLength g < 4 + (decimalDigitCodes text.length).length + text.length := by
      rcases h with h | h
      · omega
      · exact h
    simp only [encode]
    rw [if_neg (show ¬ text.length > 999999 from h1),
      if_pos (show (decimalDigitCodes text.length).length + 4 + text.length > getLength g by
        omega)]

/-- Witness for C2: a 6-character text on a 5-pixel grid (frame needs
1 + 4 + 6 = 11 pixels). -/
theorem C2_encode_capacity_failure_atomic_witness :
    (999999 < ([65, 66, 67, 68, 69, 70] : List ℤ).length ∨
      getLength emptyMsgGrid <
        4 + (decimalDigitCodes ([65, 66, 67, 68, 69, 70] : List ℤ).length).length +
          ([65, 66, 67, 68, 69, 70] : List ℤ).length) ∧
    encode emptyMsgGrid [65, 66, 67, 68, 69, 70] = (false, emptyMsgGrid) :=
  ⟨by decide, C2_encode_capacity_failure_atomic emptyMsgGrid _ (by decide)⟩

/-- C3 (code bug): on a grid whose decoded sequence starts `}`,`~` with no later
`~` at all, `_isMarker`'s `rest.index(126)` raises `ValueError`, so `decode`
raises instead of returning `None` as the spec and its own docstring promise. -/
theorem C3_missing_close_marker_raises :
    pixels_to_ASCII noCloseMarkerGrid = [125, 126, 65] ∧
    decode noCloseMarkerGrid = .error .valueError := by decide

/-- C7: the per-channel digit encoding of `_encode_pixel`
(`channel = (channel//10)*10 + digit`, minus 10 when that exceeds 255) leaves a
value `v` with `v % 10 = digit` and `v ∈ [0, 255]`; the tens-and-higher portion
`(channel//10)*10` is preserved except in the overflow case, where it drops by
exactly 10. -/
theorem C7_encodeChannel_invariant (c d : ℤ) (hc0 : 0 ≤ c) (hc1 : c ≤ 255)
    (hd0 : 0 ≤ d) (hd1 : d ≤ 9) :
    (encodeChannel c d) % 10 = d ∧ 0 ≤ encodeChannel c d ∧ encodeChannel c d ≤ 255 ∧
      (if 255 < (c / 10) * 10 + d then
        (encodeChannel c d) / 10 * 10 = (c / 10) * 10 - 10
      else (encodeChannel c d) / 10 * 10 = (c / 10) * 10) := by
  simp only [encodeChannel]
  split_ifs <;> omega

/-- Witness for C7 at the docstring's own example: channel 254, digit 6 overflows
(250 + 6 > 255) and folds back to 246. -/
theorem C7_encodeChannel_invariant_witness :
    (encodeChannel 254 6) % 10 = 6 ∧ 0 ≤ encodeChannel 254 6 ∧
      encodeChannel 254 6 ≤ 255 ∧
      (if 255 < ((254 : ℤ) / 10) * 10 + 6 then
        (encodeChannel 254 6) / 10 * 10 = ((254 : ℤ) / 10) * 10 - 10
      else (encodeChannel 254 6) / 10 * 10 = ((254 : ℤ) / 10) * 10) :=
  C7_encodeChannel_invariant 254 6 (by decide) (by decide) (by decide) (by decide)

/-! ### Claim C10: decode is read-only -/

theorem pixels_to_ASCIIS_snd (g : Image) : (pixels_to_ASCIIS g).2 = g := by
  have h : ∀ (l : List ℕ) (acc : List ℤ × Image),
      (l.foldl (fun acc x => (acc.1 ++ [decode_pixel acc.2 x], acc.2)) acc).2 = acc.2 := by
    intro l
    induction l with
    | nil => intro acc; rfl
    | cons a as ih => intro acc; exact ih _
  exact h _ _

/-- C10: `decode` is read-only. The grid threaded through the call (`decodeS`) comes
back exactly as it went in — same width, same height, same pixel at every flat
position — because the pixel scan (`_pixels_to_ASCII` via `_decode_pixel` and
`getFlatPixel`) only reads, and the rest of `decode` works on the extracted code
list. This holds whether the result is a message, the absent result, or a raised
exception. -/
theorem C10_decode_read_only (g : Image) :
    (decodeS g).2 = g ∧ getWidth (decodeS g).2 = getWidth g ∧
      getHeight (decodeS g).2 = getHeight g ∧
      ∀ pos, getFlatPixel (decodeS g).2 pos = getFlatPixel g pos := by
  have h : (decodeS g).2 = g := pixels_to_ASCIIS_snd g
  exact ⟨h, by rw [h], by rw [h], fun pos => by rw [h]⟩

/-! ### Characterization of the nested geometric write loop -/

theorem innerWrite_spec (f : ℕ → ℕ → RGB) (row : ℕ) (n : ℕ) (cur : Image) :
    ((List.range n).foldl (fun c2 col => setPixel c2 row col (f row col)) cur).width
        = cur.width ∧
    ((List.range n).foldl (fun c2 col => setPixel c2 row col (f row col)) cur).pixels.length
        = cur.pixels.length ∧
    ∀ i, getFlatPixel
        ((List.range n).foldl (fun c2 col => setPixel c2 row col (f row col)) cur) i =
      if row * cur.width ≤ i ∧ i < row * cur.width + n ∧ i < cur.pixels.length
      then f row (i - row * cur.width) else getFlatPixel cur i := by
  induction n with
  | zero =>
    refine ⟨rfl, rfl, fun i => ?_⟩
    rw [if_neg (by omega), List.range_zero, List.foldl_nil]
  | succ n ih =>
    obtain ⟨hw, hl, hg⟩ := ih
    rw [List.range_succ, List.foldl_append, List.foldl_cons, List.foldl_nil]
    set R := (List.range n).foldl (fun c2 col => setPixel c2 row col (f row col)) cur with hR
    refine ⟨by simp [hw], by simp [hl], fun i => ?_⟩
    have hsp : setPixel R row n (f row n)
        = setFlatPixel R (row * cur.width + n) (f row n) := by
      rw [show setPixel R row n (f row n)
          = setFlatPixel R (row * R.width + n) (f row n) from rfl, hw]
    rw [hsp, getFlat_setFlat R (row * cur.width + n) i (f row n), hg i, hl]
    by_cases hA : i = row * cur.width + n ∧ row * cur.width + n < cur.pixels.length
    · rw [if_pos hA, if_pos (by omega)]
      obtain ⟨rfl, _⟩ := hA
      congr 1
      omega
    · rw [if_neg hA]
      by_cases hB : row * cur.width ≤ i ∧ i < row * cur.width + n ∧ i < cur.pixels.length
      · rw [if_pos hB, if_pos (by omega)]
      · rw [if_neg hB, if_neg (by omega)]

theorem nestedWrite_spec (f : ℕ → ℕ → RGB) (rows : ℕ) (cur : Image) :
    (nestedWrite cur rows f).width = cur.width ∧
    (nestedWrite cur rows f).pixels.length = cur.pixels.length ∧
    ∀ i, getFlatPixel (nestedWrite cur rows f) i =
      if i < rows * cur.width ∧ i < cur.pixels.length
      then f (i / cur.width) (i % cur.width) else getFlatPixel cur i := by
  induction rows with
  | zero =>
    refine ⟨rfl, rfl, fun i => ?_⟩
    rw [if_neg (by omega)]
    unfold nestedWrite
    rw [List.range_zero, List.foldl_nil]
  | succ n ih =>
    obtain ⟨hw, hl, hg⟩ := ih
    have hstep : nestedWrite cur (n + 1) f
        = (List.range (getWidth (nestedWrite cur n f))).foldl
            (fun c2 col => setPixel c2 n col (f n col)) (nestedWrite cur n f) := by
      unfold nestedWrite
      rw [List.range_succ, List.foldl_append, List.foldl_cons, List.foldl_nil]
    rw [hstep, show getWidth (nestedWrite cur n f) = cur.width from hw]
    obtain ⟨hw2, hl2, hg2⟩ := innerWrite_spec f n cur.width (nestedWrite cur n f)
    refine ⟨by rw [hw2, hw], by rw [hl2, hl], fun i => ?_⟩
    rw [hg2 i, hw, hl, hg i, Nat.succ_mul]
    by_cases hW0 : cur.width = 0
    · rw [hW0, Nat.mul_zero]
      split_ifs <;> first | rfl | omega
    · have hWpos : 0 < cur.width := Nat.pos_of_ne_zero hW0
      by_cases hA : n * cur.width ≤ i ∧ i < n * cur.width + cur.width ∧ i < cur.pixels.length
      · rw [if_pos hA, if_pos (by omega)]
        obtain ⟨c, hc, rfl⟩ : ∃ c, c < cur.width ∧ i = n * cur.width + c :=
          ⟨i - n * cur.width, by omega, by omega⟩
        rw [(flat_decomp cur.width hWpos n c hc).1, (flat_decomp cur.width hWpos n c hc).2]
        congr 1
        omega
      · rw [if_neg hA]
        by_cases hB : i < n * cur.width ∧ i < cur.pixels.length
        · rw [if_pos hB, if_pos (by omega)]
        · rw [if_neg hB, if_neg (by omega)]

/-! ### Claims C5 and C6: transpose involution, rotation composition -/

theorem transpose_spec (g : Image) (w h : ℕ) (hw : g.width = w)
    (hlen : g.pixels.length = w * h) (h0 : 0 < w) (h1 : 0 < h) :
    (transpose g).width = h ∧ (transpose g).pixels.length = w * h ∧
    ∀ i, i < w * h →
      getFlatPixel (transpose g) i = getFlatPixel g ((i % h) * w + i / h) := by
  have hgh : getHeight g = h := by
    unfold getHeight
    rw [hw, hlen, Nat.mul_div_cancel_left h h0]
  have hgh2 : getHeight (setWidth g h) = w := by
    show g.pixels.length / h = w
    rw [hlen, Nat.mul_div_cancel w h1]
  have hT : transpose g
      = nestedWrite (setWidth g h) w (fun row col => getPixel g col row) := by
    show nestedWrite (setWidth g (getHeight g)) (getHeight (setWidth g (getHeight g)))
        (fun row col => getPixel g col row) = _
    rw [hgh, hgh2]
  obtain ⟨hw2, hl2, hg2⟩ := nestedWrite_spec (fun row col => getPixel g col row) w (setWidth g h)
  have hsw : (setWidth g h).width = h := rfl
  have hsl : (setWidth g h).pixels.length = w * h := hlen
  refine ⟨by rw [hT, hw2, hsw], by rw [hT, hl2, hsl], fun i hi => ?_⟩
  rw [hT, hg2 i, hsw, hsl, if_pos ⟨hi, hi⟩]
  show getFlatPixel g ((i % h) * g.width + i / h) = _
  rw [hw]

/-- C5: `transpose` swaps the dimensions (`new_width = old_height`,
`new_height = old_width`), sets every new pixel `(row, col)` to the snapshot value
at `(col, row)`, and applying it twice restores the original grid exactly —
dimensions and pixel list — including on non-square grids. -/
theorem C5_transpose_involution (g : Image) (w h : ℕ) (hw : g.width = w)
    (hlen : g.pixels.length = w * h) (h0 : 1 ≤ w) (h1 : 1 ≤ h) :
    (transpose g).width = h ∧ getHeight (transpose g) = w ∧
    (∀ row col, row < w → col < h →
      getPixel (transpose g) row col = getPixel g col row) ∧
    transpose (transpose g) = g := by
  obtain ⟨hTw, hTl, hTf⟩ := transpose_spec g w h hw hlen h0 h1
  have hTh : getHeight (transpose g) = w := by
    unfold getHeight
    rw [hTw, hTl, Nat.mul_div_cancel w h1]
  refine ⟨hTw, hTh, fun row col hr hc => ?_, ?_⟩
  · have hi : row * h + col < w * h := by
      have hle : (row + 1) * h ≤ w * h := Nat.mul_le_mul_right h (by omega)
      rw [Nat.succ_mul] at hle
      omega
    show getFlatPixel (transpose g) (row * (transpose g).width + col)
        = getFlatPixel g (col * g.width + row)
    rw [hTw, hw, hTf (row * h + col) hi,
      (flat_decomp h h1 row col hc).1, (flat_decomp h h1 row col hc).2]
  · obtain ⟨hT2w, hT2l, hT2f⟩ :=
      transpose_spec (transpose g) h w hTw (by rw [hTl, Nat.mul_comm]) h1 h0
    refine Image.eq_of _ _ (by rw [hT2w, hw]) ?_
    refine List.ext_getElem (by rw [hT2l, hlen, Nat.mul_comm]) (fun i hi1 hi2 => ?_)
    have hiwh : i < w * h := by rw [← hlen]; exact hi2
    have hidiv : i / w < h := by
      rw [Nat.div_lt_iff_lt_mul h0, Nat.mul_comm]
      exact hiwh
    have himod : i % w < w := Nat.mod_lt i h0
    have hj : (i % w) * h + i / w < w * h := by
      have hle : (i % w + 1) * h ≤ w * h := Nat.mul_le_mul_right h (by omega)
      rw [Nat.succ_mul] at hle
      omega
    rw [← getFlatPixel_eq_getElem _ _ hi1, ← getFlatPixel_eq_getElem _ _ hi2,
      hT2f i (by rw [Nat.mul_comm]; exact hiwh), hTf _ hj,
      (flat_decomp h h1 (i % w) (i / w) hidiv).2,
      (flat_decomp h h1 (i % w) (i / w) hidiv).1,
      show i / w * w + i % w = i from by rw [Nat.mul_comm]; exact Nat.div_add_mod i w]

theorem rotateRight_spec (g : Image) (w h : ℕ) (hw : g.width = w)
    (hlen : g.pixels.length = w * h) (h0 : 0 < w) (h1 : 0 < h) :
    (rotateRight g).width = h ∧ (rotateRight g).pixels.length = w * h ∧
    ∀ i, i < w * h →
      getFlatPixel (rotateRight g) i = getFlatPixel g ((h - 1 - i % h) * w + i / h) := by
  have hgh : getHeight g = h := by
    unfold getHeight
    rw [hw, hlen, Nat.mul_div_cancel_left h h0]
  have hgh2 : getHeight (setWidth g h) = w := by
    show g.pixels.length / h = w
    rw [hlen, Nat.mul_div_cancel w h1]
  have hT : rotateRight g
      = nestedWrite (setWidth g h) w (fun row col => getPixel g (h - col - 1) row) := by
    show nestedWrite (setWidth g (getHeight g)) (getHeight (setWidth g (getHeight g)))
        (fun row col => getPixel g (getHeight g - col - 1) row) = _
    rw [hgh, hgh2]
  obtain ⟨hw2, hl2, hg2⟩ :=
    nestedWrite_spec (fun row col => getPixel g (h - col - 1) row) w (setWidth g h)
  have hsw : (setWidth g h).width = h := rfl
  have hsl : (setWidth g h).pixels.length = w * h := hlen
  refine ⟨by rw [hT, hw2, hsw], by rw [hT, hl2, hsl], fun i hi => ?_⟩
  rw [hT, hg2 i, hsw, hsl, if_pos ⟨hi, hi⟩]
  show getFlatPixel g ((h - i % h - 1) * g.width + i / h) = _
  rw [hw, show h - i % h - 1 = h - 1 - i % h from by omega]

theorem rotateRight_twice (g : Image) (w h : ℕ) (hw : g.width = w)
    (hlen : g.pixels.length = w * h) (h0 : 0 < w) (h1 : 0 < h) :
    (rotateRight (rotateRight g)).width = w ∧
    (rotateRight (rotateRight g)).pixels.length = w * h ∧
    ∀ i, i < w * h →
      getFlatPixel (rotateRight (rotateRight g)) i
        = getFlatPixel g ((h - 1 - i / w) * w + (w - 1 - i % w)) := by
  obtain ⟨hRw, hRl, hRf⟩ := rotateRight_spec g w h hw hlen h0 h1
  obtain ⟨hR2w, hR2l, hR2f⟩ :=
    rotateRight_spec (rotateRight g) h w hRw (by rw [hRl, Nat.mul_comm]) h1 h0
  refine ⟨hR2w, by rw [hR2l, Nat.mul_comm], fun i hi => ?_⟩
  have hidiv : i / w < h := by
    rw [Nat.div_lt_iff_lt_mul h0, Nat.mul_comm]
    exact hi
  have himod : i % w < w := Nat.mod_lt i h0
  have hj : (w - 1 - i % w) * h + i / w < w * h := by
    have hle : (w - 1 - i % w + 1) * h ≤ w * h := Nat.mul_le_mul_right h (by omega)
    rw [Nat.succ_mul] at hle
    omega
  rw [hR2f i (by rw [Nat.mul_comm]; exact hi), hRf _ hj,
    (flat_decomp h h1 (w - 1 - i % w) (i / w) hidiv).2,
    (flat_decomp h h1 (w - 1 - i % w) (i / w) hidiv).1]

/-- C6: a single `rotateRight` swaps the dimensions and sets every new pixel
`(row, col)` to the snapshot value at `(old_height - 1 - col, row)`; applying
`rotateRight` four times returns the original grid unchanged, in dimensions and
pixel list. -/
theorem C6_rotateRight_composition (g : Image) (w h : ℕ) (hw : g.width = w)
    (hlen : g.pixels.length = w * h) (h0 : 1 ≤ w) (h1 : 1 ≤ h) :
    (rotateRight g).width = h ∧ getHeight (rotateRight g) = w ∧
    (∀ row col, row < w → col < h →
      getPixel (rotateRight g) row col = getPixel g (h - 1 - col) row) ∧
    rotateRight (rotateRight (rotateRight (rotateRight g))) = g := by
  obtain ⟨hRw, hRl, hRf⟩ := rotateRight_spec g w h hw hlen h0 h1
  have hRh : getHeight (rotateRight g) = w := by
    unfold getHeight
    rw [hRw, hRl, Nat.mul_div_cancel w h1]
  refine ⟨hRw, hRh, fun row col hr hc => ?_, ?_⟩
  · have hi : row * h + col < w * h := by
      have hle : (row + 1) * h ≤ w * h := Nat.mul_le_mul_right h (by omega)
      rw [Nat.succ_mul] at hle
      omega
    show getFlatPixel (rotateRight g) (row * (rotateRight g).width + col)
        = getFlatPixel g ((h - 1 - col) * g.width + row)
    rw [hRw, hw, hRf (row * h + col) hi,
      (flat_decomp h h1 row col hc).1, (flat_decomp h h1 row col hc).2]
  · obtain ⟨hD2w, hD2l, hD2f⟩ := rotateRight_twice g w h hw hlen h0 h1
    obtain ⟨hD4w, hD4l, hD4f⟩ :=
      rotateRight_twice (rotateRight (rotateRight g)) w h hD2w hD2l h0 h1
    refine Image.eq_of _ _ (by rw [hD4w, hw]) ?_
    refine List.ext_getElem (by rw [hD4l, hlen]) (fun i hi1 hi2 => ?_)
    clear hD2w hD2l hD4w hD4l hRw hRl hRf hRh
    have hiwh : i < w * h := by rw [← hlen]; exact hi2
    have hidiv : i / w < h := by
      rw [Nat.div_lt_iff_lt_mul h0, Nat.mul_comm]
      exact hiwh
    have himod : i % w < w := Nat.mod_lt i h0
    obtain ⟨a, b, ha, hb, hab, hah, hbw⟩ :
        ∃ a b, i / w = a ∧ i % w = b ∧ i = a * w + b ∧ a < h ∧ b < w :=
      ⟨i / w, i % w, rfl, rfl,
        by rw [Nat.mul_comm]; exact (Nat.div_add_mod i w).symm, hidiv, himod⟩
    have hj : (h - 1 - a) * w + (w - 1 - b) < w * h := by
      have hle : (h - 1 - a + 1) * w ≤ h * w := Nat.mul_le_mul_right w (by omega)
      rw [Nat.succ_mul] at hle
      have hcomm : h * w = w * h := Nat.mul_comm h w
      omega
    rw [← getFlatPixel_eq_getElem _ _ hi1, ← getFlatPixel_eq_getElem _ _ hi2,
      hD4f i hiwh, ha, hb, hD2f _ hj,
      (flat_decomp w h0 (h - 1 - a) (w - 1 - b) (by omega)).1,
      (flat_decomp w h0 (h - 1 - a) (w - 1 - b) (by omega)).2,
      show h - 1 - (h - 1 - a) = a from by omega,
      show w - 1 - (w - 1 - b) = b from by omega, ← hab]

/-- Witness for C5 on a concrete 3-wide, 2-tall grid of distinct pixels. -/
theorem C5_transpose_involution_witness :
    (geomGrid.width = 3 ∧ geomGrid.pixels.length = 3 * 2 ∧ 1 ≤ 3 ∧ 1 ≤ 2) ∧
    ((transpose geomGrid).width = 2 ∧ getHeight (transpose geomGrid) = 3 ∧
      (∀ row col, row < 3 → col < 2 →
        getPixel (transpose geomGrid) row col = getPixel geomGrid col row) ∧
      transpose (transpose geomGrid) = geomGrid) :=
  ⟨⟨rfl, rfl, by omega, by omega⟩,
    C5_transpose_involution geomGrid 3 2 rfl rfl (by omega) (by omega)⟩

/-- Witness for C6 on the same concrete non-square grid shape. -/
theorem C6_rotateRight_composition_witness :
    (rotGrid.width = 3 ∧ rotGrid.pixels.length = 3 * 2 ∧ 1 ≤ 3 ∧ 1 ≤ 2) ∧
    ((rotateRight rotGrid).width = 2 ∧ getHeight (rotateRight rotGrid) = 3 ∧
      (∀ row col, row < 3 → col < 2 →
        getPixel (rotateRight rotGrid) row col = getPixel rotGrid (2 - 1 - col) row) ∧
      rotateRight (rotateRight (rotateRight (rotateRight rotGrid))) = rotGrid) :=
  ⟨⟨rfl, rfl, by omega, by omega⟩,
    C6_rotateRight_composition rotGrid 3 2 rfl rfl (by omega) (by omega)⟩

/-! ### Claim C9: the vignette darkening factor -/

theorem sq_half_bound (w K : ℕ) (hK : K ≤ w) :
    ((K : ℚ) - w / 2) ^ 2 ≤ (w : ℚ) ^ 2 / 4 := by
  have h1 : ((K : ℚ) - w / 2) ^ 2 ≤ ((w : ℚ) / 2) ^ 2 := by
    apply sq_le_sq'
    · have h2 : (0 : ℚ) ≤ K := Nat.cast_nonneg K
      linarith
    · have h2 : (K : ℚ) ≤ w := Nat.cast_le.mpr hK
      linarith
  have h3 : ((w : ℚ) / 2) ^ 2 = (w : ℚ) ^ 2 / 4 := by ring
  linarith

theorem vignetteFormula_nonneg (w h x k : ℕ) :
    0 ≤ vignetteFormula w h (min x (h - 1)) (min k (w - 1)) := by
  have hK : min k (w - 1) ≤ w := le_trans (min_le_right _ _) (Nat.sub_le w 1)
  have hX : min x (h - 1) ≤ h := le_trans (min_le_right _ _) (Nat.sub_le h 1)
  have h1 := sq_half_bound w (min k (w - 1)) hK
  have h2 := sq_half_bound h (min x (h - 1)) hX
  unfold vignetteFormula
  by_cases hwh : (w : ℚ) ^ 2 + (h : ℚ) ^ 2 = 0
  · rw [hwh]
    norm_num
  · have hpos : 0 < ((w : ℚ) ^ 2 + (h : ℚ) ^ 2) / 4 := by
      have h4 : 0 ≤ (w : ℚ) ^ 2 + (h : ℚ) ^ 2 := by positivity
      have h5 : 0 < (w : ℚ) ^ 2 + (h : ℚ) ^ 2 := lt_of_le_of_ne h4 (Ne.symm hwh)
      linarith
    have hle : ((((min k (w - 1) : ℕ) : ℚ) - w / 2) ^ 2
          + (((min x (h - 1) : ℕ) : ℚ) - h / 2) ^ 2) / (((w : ℚ) ^ 2 + (h : ℚ) ^ 2) / 4) ≤ 1 := by
      rw [div_le_one hpos]
      linarith
    linarith

/-- C9 counterexample: contrary to the claim, the darkening factor can never go
negative at an in-range pixel of any grid, corner pixels of non-square grids
included: there is no grid dimension and pixel coordinate at which the exact
factor `1 - dist2/hfd2` is negative. The most distant pixel is the top-left
corner `(0, 0)`, at distance exactly the half diagonal, where the factor is
exactly 0. -/
theorem C9_vignette_factor_never_negative :
    ¬ ∃ w h x k : ℕ, x < h ∧ k < w ∧ vignetteFormula w h x k < 0 := by
  rintro ⟨w, h, x, k, hx, hk, hneg⟩
  have hmin : min x (h - 1) = x ∧ min k (w - 1) = k := ⟨by omega, by omega⟩
  have h0 := vignetteFormula_nonneg w h x k
  rw [hmin.1, hmin.2] at h0
  exact absurd hneg (not_lt.mpr h0)

/-- C9 amended: on a non-square grid the darkening factor reaches exactly 0 at the
top-left corner pixel, so a vignetted pixel's channels can come out exactly zero;
they are truncations of `channel * factor` with a nonnegative factor, never
negative values. Concretely on the 2×1 grid: the white corner pixel becomes
`(0,0,0)` and the in-range pixel `(0,1)` (factor 4/5) becomes `(160,80,40)`. -/
theorem C9_vignette_zero_at_corner :
    vignetteFormula 2 1 0 0 = 0 ∧
    getPixel (vignette vigGrid) 0 0 = (0, 0, 0) ∧
    getPixel (vignette vigGrid) 0 1 = (160, 80, 40) := by
  refine ⟨by unfold vignetteFormula; norm_num, ?_, ?_⟩ <;>
    · show getFlatPixel _ _ = _
      norm_num [vignette, vigGrid, getWidth, getHeight, getPixel, getFlatPixel,
        setPixel, setFlatPixel, vignetteFormula, ratTrunc, List.range_succ,
        List.range_zero, List.foldl_cons, List.foldl_nil]

/-! ### Claim C8: jail geometry -/

@[simp] theorem width_setMany (g : Image) (idxs : List ℕ) (p : RGB) :
    (setMany g idxs p).width = g.width := by
  induction idxs generalizing g with
  | nil => rfl
  | cons a as ih =>
    show (setMany (setFlatPixel g a p) as p).width = g.width
    rw [ih, width_setFlatPixel]

@[simp] theorem length_setMany (g : Image) (idxs : List ℕ) (p : RGB) :
    (setMany g idxs p).pixels.length = g.pixels.length := by
  induction idxs generalizing g with
  | nil => rfl
  | cons a as ih =>
    show (setMany (setFlatPixel g a p) as p).pixels.length = g.pixels.length
    rw [ih, length_setFlatPixel]

theorem getFlat_setMany (g : Image) (idxs : List ℕ) (p : RGB) (i : ℕ) :
    getFlatPixel (setMany g idxs p) i =
      if i ∈ idxs ∧ i < g.pixels.length then p else getFlatPixel g i := by
  induction idxs generalizing g with
  | nil =>
    rw [if_neg (by simp)]
    rfl
  | cons a as ih =>
    show getFlatPixel (setMany (setFlatPixel g a p) as p) i = _
    rw [ih (setFlatPixel g a p), length_setFlatPixel, getFlat_setFlat]
    by_cases h1 : i ∈ as ∧ i < g.pixels.length
    · rw [if_pos h1, if_pos ⟨List.mem_cons_of_mem a h1.1, h1.2⟩]
    · rw [if_neg h1]
      by_cases h2 : i = a ∧ a < g.pixels.length
      · rw [if_pos h2, if_pos ⟨by rw [h2.1]; exact List.mem_cons_self a as, by omega⟩]
      · rw [if_neg h2, if_neg (by
          rintro ⟨hmem, hl⟩
          rcases List.mem_cons.mp hmem with rfl | hmem2
          · exact h2 ⟨rfl, hl⟩
          · exact h1 ⟨hmem2, hl⟩)]

theorem setMany_append (g : Image) (xs ys : List ℕ) (p : RGB) :
    setMany g (xs ++ ys) p = setMany (setMany g xs p) ys p := by
  simp [setMany, List.foldl_append]

theorem foldl_setMany (W : ℕ) (l : List ℕ) (F : ℕ → List ℕ) (p : RGB)
    (body : Image → ℕ → Image)
    (hbody : ∀ cur a, cur.width = W → body cur a = setMany cur (F a) p) :
    ∀ g : Image, g.width = W → l.foldl body g = setMany g (l.flatMap F) p := by
  induction l with
  | nil =>
    intro g hg
    rw [List.foldl_nil, List.flatMap_nil]
    rfl
  | cons a as ih =>
    intro g hg
    rw [List.foldl_cons, hbody g a hg, List.flatMap_cons, setMany_append]
    exact ih (setMany g (F a) p) (by rw [width_setMany, hg])

theorem drawHBar_eq (g : Image) (row : ℕ) (p : RGB) :
    drawHBar g row p = setMany g
      ((List.range g.width).flatMap (fun col =>
        [row * g.width + col, (row + 1) * g.width + col, (row + 2) * g.width + col])) p := by
  unfold drawHBar
  exact foldl_setMany g.width (List.range (getWidth g)) _ p _
    (fun cur a hcur => by
      simp only [setMany, List.foldl_cons, List.foldl_nil, setPixel, width_setFlatPixel, hcur])
    g rfl

theorem drawVBar_eq (g : Image) (col : ℕ) (p : RGB) :
    drawVBar g col p = setMany g
      ((List.range (getHeight g)).flatMap (fun a =>
        [a * g.width + col, a * g.width + (col + 1), a * g.width + (col + 2),
          a * g.width + (col + 3)])) p := by
  unfold drawVBar
  exact foldl_setMany g.width (List.range (getHeight g)) _ p _
    (fun cur a hcur => by
      simp only [setMany, List.foldl_cons, List.foldl_nil, setPixel, width_setFlatPixel, hcur])
    g rfl

@[simp] theorem width_drawHBar (g : Image) (row : ℕ) (p : RGB) :
    (drawHBar g row p).width = g.width := by
  rw [drawHBar_eq, width_setMany]

@[simp] theorem length_drawHBar (g : Image) (row : ℕ) (p : RGB) :
    (drawHBar g row p).pixels.length = g.pixels.length := by
  rw [drawHBar_eq, length_setMany]

@[simp] theorem width_drawVBar (g : Image) (col : ℕ) (p : RGB) :
    (drawVBar g col p).width = g.width := by
  rw [drawVBar_eq, width_setMany]

@[simp] theorem length_drawVBar (g : Image) (col : ℕ) (p : RGB) :
    (drawVBar g col p).pixels.length = g.pixels.length := by
  rw [drawVBar_eq, length_setMany]

theorem getPixel_drawHBar (g : Image) (w h row : ℕ) (p : RGB)
    (hw : g.width = w) (hlen : g.pixels.length = w * h) (hrow : row + 2 < h)
    (r c : ℕ) (hr : r < h) (hc : c < w) :
    getPixel (drawHBar g row p) r c =
      if r = row ∨ r = row + 1 ∨ r = row + 2 then p else getPixel g r c := by
  have h0 : 0 < w := by omega
  have hi : r * w + c < w * h := by
    have hle : (r + 1) * w ≤ h * w := Nat.mul_le_mul_right w (by omega)
    rw [Nat.succ_mul] at hle
    have hcomm : h * w = w * h := Nat.mul_comm h w
    omega
  simp only [getPixel]
  rw [width_drawHBar, drawHBar_eq, getFlat_setMany, hw, hlen]
  have hmem : ((r * w + c) ∈ (List.range w).flatMap (fun col =>
      [row * w + col, (row + 1) * w + col, (row + 2) * w + col]))
      ↔ (r = row ∨ r = row + 1 ∨ r = row + 2) := by
    simp only [List.mem_flatMap, List.mem_range, List.mem_cons, List.not_mem_nil, or_false]
    constructor
    · rintro ⟨col, hcol, hcase⟩
      have hdr := (flat_decomp w h0 r c hc).1
      rcases hcase with he | he | he
      · left
        have hd2 := (flat_decomp w h0 row col hcol).1
        rw [he] at hdr
        omega
      · right; left
        have hd2 := (flat_decomp w h0 (row + 1) col hcol).1
        rw [he] at hdr
        omega
      · right; right
        have hd2 := (flat_decomp w h0 (row + 2) col hcol).1
        rw [he] at hdr
        omega
    · intro hcase
      refine ⟨c, hc, ?_⟩
      rcases hcase with rfl | rfl | rfl
      · left; rfl
      · right; left; rfl
      · right; right; rfl
  by_cases hcond : r = row ∨ r = row + 1 ∨ r = row + 2
  · rw [if_pos ⟨hmem.mpr hcond, hi⟩, if_pos hcond]
  · rw [if_neg (fun hcon => hcond (hmem.mp hcon.1)), if_neg hcond]

theorem getPixel_drawVBar (g : Image) (w h col : ℕ) (p : RGB)
    (hw : g.width = w) (hlen : g.pixels.length = w * h) (hcol : col + 3 < w)
    (r c : ℕ) (hr : r < h) (hc : c < w) :
    getPixel (drawVBar g col p) r c =
      if c = col ∨ c = col + 1 ∨ c = col + 2 ∨ c = col + 3 then p else getPixel g r c := by
  have h0 : 0 < w := by omega
  have hgh : getHeight g = h := by
    unfold getHeight
    rw [hw, hlen, Nat.mul_div_cancel_left h h0]
  have hi : r * w + c < w * h := by
    have hle : (r + 1) * w ≤ h * w := Nat.mul_le_mul_right w (by omega)
    rw [Nat.succ_mul] at hle
    have hcomm : h * w = w * h := Nat.mul_comm h w
    omega
  simp only [getPixel]
  rw [width_drawVBar, drawVBar_eq, getFlat_setMany, hgh, hw, hlen]
  have hmem : ((r * w + c) ∈ (List.range h).flatMap (fun a =>
      [a * w + col, a * w + (col + 1), a * w + (col + 2), a * w + (col + 3)]))
      ↔ (c = col ∨ c = col + 1 ∨ c = col + 2 ∨ c = col + 3) := by
    simp only [List.mem_flatMap, List.mem_range, List.mem_cons, List.not_mem_nil, or_false]
    constructor
    · rintro ⟨a, ha, hcase⟩
      have hdr := (flat_decomp w h0 r c hc).2
      rcases hcase with he | he | he | he
      · left
        have hd2 := (flat_decomp w h0 a col (by omega)).2
        rw [he] at hdr
        omega
      · right; left
        have hd2 := (flat_decomp w h0 a (col + 1) (by omega)).2
        rw [he] at hdr
        omega
      · right; right; left
        have hd2 := (flat_decomp w h0 a (col + 2) (by omega)).2
        rw [he] at hdr
        omega
      · right; right; right
        have hd2 := (flat_decomp w h0 a (col + 3) (by omega)).2
        rw [he] at hdr
        omega
    · intro hcase
      refine ⟨r, hr, ?_⟩
      rcases hcase with rfl | rfl | rfl | rfl
      · left; rfl
      · right; left; rfl
      · right; right; left; rfl
      · right; right; right; rfl
  by_cases hcond : c = col ∨ c = col + 1 ∨ c = col + 2 ∨ c = col + 3
  · rw [if_pos ⟨hmem.mpr hcond, hi⟩, if_pos hcond]
  · rw [if_neg (fun hcon => hcond (hmem.mp hcon.1)), if_neg hcond]

theorem jailBarCols_120 : jailBarCols 120 = [0, 29, 58, 87, 116] := by
  have h5 : ((((120 : ℕ) : ℤ) - 8) / 50 + 3).toNat = 5 := by decide
  simp only [jailBarCols, h5, List.range_succ, List.range_zero, List.nil_append,
    List.cons_append, List.map_cons, List.map_nil]
  norm_num [ratTrunc]

/-- C8 counterexample: at width 120 the code computes `n = (120-8)//50 = 2` but
draws FIVE vertical bars, at columns 0, 29, 58, 87 and 116 — the two edge bars
plus three evenly spaced interior bars — because `range(n+3)` yields `n+3` start
positions `k*dist` for `k = 0..n+2`. The claim's count (edge bars plus `n = 2`
between them, i.e. `n+2 = 4` bars in total) is off by one. -/
theorem C8_jail_bar_count :
    jailBarCols 120 = [0, 29, 58, 87, 116] ∧
    ((120 : ℤ) - 8) / 50 = 2 ∧
    (jailBarCols 120).length ≠ (((120 : ℤ) - 8) / 50).toNat + 2 := by
  refine ⟨jailBarCols_120, by decide, ?_⟩
  rw [jailBarCols_120]
  decide

/-- C8 amended: at width 120, `jail` computes `n = 2` and `dist = 29` and paints
red (255,0,0) exactly the 3-row bars at the top (`rows 0..2`) and bottom
(`rows h-3..h-1`) and the five 4-column vertical bars starting at columns
0, 29, 58, 87, 116 (edge bars plus three interior bars); every other pixel keeps
its original value. -/
theorem C8_jail_geometry_width120 (g : Image) (hh : ℕ) (hw : g.width = 120)
    (hlen : g.pixels.length = 120 * hh) (hh6 : 6 ≤ hh) :
    ∀ r c, r < hh → c < 120 →
      getPixel (jail g) r c =
        if r < 3 ∨ hh - 3 ≤ r ∨ c < 4 ∨ (29 ≤ c ∧ c < 33) ∨ (58 ≤ c ∧ c < 62)
            ∨ (87 ≤ c ∧ c < 91) ∨ 116 ≤ c
        then ((255 : ℤ), (0 : ℤ), (0 : ℤ)) else getPixel g r c := by
  intro r c hr hc
  have hgh : getHeight g = hh := by
    unfold getHeight
    rw [hw, hlen, Nat.mul_div_cancel_left hh (by omega)]
  have hjail : jail g = drawVBar (drawVBar (drawVBar (drawVBar (drawVBar
      (drawHBar (drawHBar g 0 (255, 0, 0)) (hh - 3) (255, 0, 0)) 0 (255, 0, 0))
      29 (255, 0, 0)) 58 (255, 0, 0)) 87 (255, 0, 0)) 116 (255, 0, 0) := by
    show (jailBarCols (getWidth g)).foldl (fun cur x => drawVBar cur x.toNat (255, 0, 0))
        (drawHBar (drawHBar g 0 (255, 0, 0)) (getHeight g - 3) (255, 0, 0)) = _
    rw [hgh, show getWidth g = 120 from hw, jailBarCols_120]
    rfl
  rw [hjail,
    getPixel_drawVBar _ 120 hh 116 _ (by simp [hw]) (by simp [hlen]) (by omega) r c hr hc,
    getPixel_drawVBar _ 120 hh 87 _ (by simp [hw]) (by simp [hlen]) (by omega) r c hr hc,
    getPixel_drawVBar _ 120 hh 58 _ (by simp [hw]) (by simp [hlen]) (by omega) r c hr hc,
    getPixel_drawVBar _ 120 hh 29 _ (by simp [hw]) (by simp [hlen]) (by omega) r c hr hc,
    getPixel_drawVBar _ 120 hh 0 _ (by simp [hw]) (by simp [hlen]) (by omega) r c hr hc,
    getPixel_drawHBar _ 120 hh (hh - 3) _ (by simp [hw]) (by simp [hlen]) (by omega) r c hr hc,
    getPixel_drawHBar _ 120 hh 0 _ hw hlen (by omega) r c hr hc]
  split_ifs <;> first | rfl | omega

/-- Witness for the amended C8 on a concrete 120×6 grid. -/
theorem C8_jail_geometry_width120_witness :
    (jailGrid.width = 120 ∧ jailGrid.pixels.length = 120 * 6 ∧ 6 ≤ 6) ∧
    (∀ r c, r < 6 → c < 120 →
      getPixel (jail jailGrid) r c =
        if r < 3 ∨ 6 - 3 ≤ r ∨ c < 4 ∨ (29 ≤ c ∧ c < 33) ∨ (58 ≤ c ∧ c < 62)
            ∨ (87 ≤ c ∧ c < 91) ∨ 116 ≤ c
        then ((255 : ℤ), (0 : ℤ), (0 : ℤ)) else getPixel jailGrid r c) :=
  ⟨⟨rfl, by norm_num [jailGrid], by omega⟩,
    C8_jail_geometry_width120 jailGrid 6 rfl (by norm_num [jailGrid]) (by omega)⟩

/-! ### Claim C4: pixellate block averaging -/

theorem range'_filter_lt (w : ℕ) : ∀ (n y : ℕ),
    (List.range' y n 1).filter (fun j => decide (j < w)) = List.range' y (min n (w - y)) 1 := by
  intro n
  induction n with
  | zero => intro y; simp
  | succ n ih =>
    intro y
    rw [List.range'_succ, List.filter_cons]
    by_cases hy : y < w
    · rw [if_pos (by simpa using hy), ih (y + 1),
        show min (n + 1) (w - y) = min n (w - (y + 1)) + 1 from by omega,
        List.range'_succ]
    · rw [if_neg (by simpa using hy), ih (y + 1),
        show min n (w - (y + 1)) = 0 from by omega,
        show min (n + 1) (w - y) = 0 from by omega]
      rfl

theorem filter_and_const_true {h w k : ℕ} (hk : k < h) (l : List ℕ) :
    l.filter (fun j => decide (k < h ∧ j < w)) = l.filter (fun j => decide (j < w)) := by
  apply List.filter_congr
  intro j _
  simp [hk]

theorem filter_and_const_false {h w k : ℕ} (hk : ¬ k < h) (l : List ℕ) :
    l.filter (fun j => decide (k < h ∧ j < w)) = [] := by
  induction l with
  | nil => rfl
  | cons j js ih =>
    rw [List.filter_cons, if_neg (by simp [hk]), ih]

theorem inner_read (g : Image) (h w k : ℕ) (cols : List ℕ) :
    ∀ (acc : ℤ × ℤ × ℤ × ℤ),
      cols.foldl (fun acc2 j =>
        if k < h ∧ j < w then
          (acc2.1 + (getPixel g k j).1, acc2.2.1 + (getPixel g k j).2.1,
            acc2.2.2.1 + (getPixel g k j).2.2, acc2.2.2.2 + 1)
        else acc2) acc
      = (acc.1 + (((cols.filter fun j => decide (k < h ∧ j < w)).map
            (fun j => (getPixel g k j).1)).sum),
         acc.2.1 + (((cols.filter fun j => decide (k < h ∧ j < w)).map
            (fun j => (getPixel g k j).2.1)).sum),
         acc.2.2.1 + (((cols.filter fun j => decide (k < h ∧ j < w)).map
            (fun j => (getPixel g k j).2.2)).sum),
         acc.2.2.2 + ((cols.filter fun j => decide (k < h ∧ j < w)).length : ℤ)) := by
  induction cols with
  | nil => intro acc; simp
  | cons j js ih =>
    intro acc
    rw [List.foldl_cons, List.filter_cons]
    by_cases hj : k < h ∧ j < w
    · rw [if_pos hj, if_pos (by simpa using hj), ih]
      simp only [List.map_cons, List.sum_cons, List.length_cons]
      refine congrArg₂ Prod.mk (by ring) (congrArg₂ Prod.mk (by ring)
        (congrArg₂ Prod.mk (by ring) (by push_cast; ring)))
    · rw [if_neg hj, if_neg (by simpa using hj), ih]

theorem outer_read (g : Image) (h w : ℕ) (cols : List ℕ) (rows : List ℕ) :
    ∀ (acc : ℤ × ℤ × ℤ × ℤ),
      rows.foldl (fun acc3 k =>
        cols.foldl (fun acc2 j =>
          if k < h ∧ j < w then
            (acc2.1 + (getPixel g k j).1, acc2.2.1 + (getPixel g k j).2.1,
              acc2.2.2.1 + (getPixel g k j).2.2, acc2.2.2.2 + 1)
          else acc2) acc3) acc
      = (acc.1 + ((rows.flatMap (fun k => (cols.filter fun j => decide (k < h ∧ j < w)).map
            (fun j => (getPixel g k j).1))).sum),
         acc.2.1 + ((rows.flatMap (fun k => (cols.filter fun j => decide (k < h ∧ j < w)).map
            (fun j => (getPixel g k j).2.1))).sum),
         acc.2.2.1 + ((rows.flatMap (fun k => (cols.filter fun j => decide (k < h ∧ j < w)).map
            (fun j => (getPixel g k j).2.2))).sum),
         acc.2.2.2 + ((rows.flatMap (fun k => (cols.filter fun j => decide (k < h ∧ j < w)).map
            (fun j => (getPixel g k j).1))).length : ℤ)) := by
  induction rows with
  | nil => intro acc; simp
  | cons k ks ih =>
    intro acc
    rw [List.foldl_cons, inner_read g h w k cols acc, ih]
    simp only [List.flatMap_cons, List.sum_append, List.length_append, List.length_map]
    refine congrArg₂ Prod.mk (by ring) (congrArg₂ Prod.mk (by ring)
      (congrArg₂ Prod.mk (by ring) (by push_cast; ring)))

theorem flatMap_guard_split {α : Type} (h w : ℕ) (F : ℕ → ℕ → α) (cols : List ℕ) :
    ∀ rows : List ℕ,
      rows.flatMap (fun k => (cols.filter fun j => decide (k < h ∧ j < w)).map (F k))
        = (rows.filter (fun k => decide (k < h))).flatMap
            (fun k => (cols.filter fun j => decide (j < w)).map (F k)) := by
  intro rows
  induction rows with
  | nil => rfl
  | cons k ks ih =>
    rw [List.flatMap_cons, List.filter_cons]
    by_cases hk : k < h
    · rw [filter_and_const_true hk, if_pos (by simpa using hk), List.flatMap_cons, ih]
    · rw [filter_and_const_false hk, if_neg (by simpa using hk), List.map_nil,
        List.nil_append, ih]

theorem length_flatMap_const {α : Type} (F : ℕ → List α) (m : ℕ) :
    ∀ rows : List ℕ, (∀ k ∈ rows, (F k).length = m) →
      (rows.flatMap F).length = rows.length * m := by
  intro rows
  induction rows with
  | nil => intro _; simp
  | cons k ks ih =>
    intro hF
    rw [List.flatMap_cons, List.length_append, hF k (List.mem_cons_self k ks),
      ih (fun a ha => hF a (List.mem_cons_of_mem _ ha)), List.length_cons, Nat.succ_mul]
    omega

theorem avgRGB_spec (g : Image) (w h x y step : ℕ) (hw : g.width = w)
    (hlen : g.pixels.length = w * h) (h0 : 0 < w) :
    (avgRGB g x y step).width = w ∧ (avgRGB g x y step).pixels.length = w * h ∧
    ∀ r c, r < h → c < w →
      getPixel (avgRGB g x y step) r c =
        if x ≤ r ∧ r < x + step ∧ y ≤ c ∧ c < y + step then blockAvg g x y step
        else getPixel g r c := by
  have hgw : getWidth g = w := hw
  have hgh : getHeight g = h := by
    unfold getHeight
    rw [hw, hlen, Nat.mul_div_cancel_left h h0]
  -- the read-phase sums, in clipped-range form
  have hread := outer_read g h w (List.range' y step 1) (List.range' x step 1) (0, 0, 0, 0)
  simp only [zero_add] at hread
  have hrowsF : (List.range' x step 1).filter (fun k => decide (k < h))
      = List.range' x (min (x + step) h - x) 1 := by
    rw [range'_filter_lt h step x, show min step (h - x) = min (x + step) h - x from by omega]
  have hcolsF : (List.range' y step 1).filter (fun j => decide (j < w))
      = List.range' y (min (y + step) w - y) 1 := by
    rw [range'_filter_lt w step y, show min step (w - y) = min (y + step) w - y from by omega]
  rw [flatMap_guard_split h w (fun k j => (getPixel g k j).1),
    flatMap_guard_split h w (fun k j => (getPixel g k j).2.1),
    flatMap_guard_split h w (fun k j => (getPixel g k j).2.2),
    hrowsF, hcolsF] at hread
  -- the written pixel equals the block average of the original grid
  have hcount : ((List.range' x (min (x + step) h - x) 1).flatMap (fun k =>
        (List.range' y (min (y + step) w - y) 1).map (fun j => (getPixel g k j).1))).length
      = (List.range' x (min (x + step) h - x) 1).length
          * (List.range' y (min (y + step) w - y) 1).length := by
    apply length_flatMap_const
    intro k _
    rw [List.length_map]
  -- write-phase bodies as setMany
  have hbodyinner : ∀ (k : ℕ) (P : RGB) (cur2 : Image) (j : ℕ), cur2.width = w →
      (if k < h ∧ j < w then setPixel cur2 k j P else cur2)
        = setMany cur2 (if k < h ∧ j < w then [k * w + j] else []) P := by
    intro k P cur2 j hcw
    by_cases hkj : k < h ∧ j < w
    · rw [if_pos hkj, if_pos hkj]
      show setFlatPixel cur2 (k * cur2.width + j) P = setMany cur2 [k * w + j] P
      rw [hcw]
      rfl
    · rw [if_neg hkj, if_neg hkj]
      rfl
  have hwrite : ∀ (P : RGB) (cur : Image), cur.width = w →
      (List.range' x step 1).foldl
        (fun cur1 k => (List.range' y step 1).foldl
          (fun cur2 j => if k < h ∧ j < w then setPixel cur2 k j P else cur2) cur1) cur
      = setMany cur ((List.range' x step 1).flatMap (fun k =>
          (List.range' y step 1).flatMap
            (fun j => if k < h ∧ j < w then [k * w + j] else []))) P := by
    intro P cur hcw
    refine foldl_setMany w _ _ P _ ?_ cur hcw
    intro cur1 k hk1
    exact foldl_setMany w _ _ P _ (fun cur2 j h2 => hbodyinner k P cur2 j h2) cur1 hk1
  -- the full representation of avgRGB
  have hdef : avgRGB g x y step = setMany g ((List.range' x step 1).flatMap (fun k =>
      (List.range' y step 1).flatMap
        (fun j => if k < h ∧ j < w then [k * w + j] else []))) (blockAvg g x y step) := by
    unfold avgRGB
    simp only [hgw, hgh]
    rw [hread]
    rw [hwrite _ g hw]
    have hP : (ratTrunc
          (((((List.range' x (min (x + step) h - x) 1).flatMap (fun k =>
              (List.range' y (min (y + step) w - y) 1).map
                (fun j => (getPixel g k j).1))).sum : ℤ) : ℚ)
            / ((((List.range' x (min (x + step) h - x) 1).flatMap (fun k =>
              (List.range' y (min (y + step) w - y) 1).map
                (fun j => (getPixel g k j).1))).length : ℤ) : ℚ)),
        ratTrunc
          (((((List.range' x (min (x + step) h - x) 1).flatMap (fun k =>
              (List.range' y (min (y + step) w - y) 1).map
                (fun j => (getPixel g k j).2.1))).sum : ℤ) : ℚ)
            / ((((List.range' x (min (x + step) h - x) 1).flatMap (fun k =>
              (List.range' y (min (y + step) w - y) 1).map
                (fun j => (getPixel g k j).1))).length : ℤ) : ℚ)),
        ratTrunc
          (((((List.range' x (min (x + step) h - x) 1).flatMap (fun k =>
              (List.range' y (min (y + step) w - y) 1).map
                (fun j => (getPixel g k j).2.2))).sum : ℤ) : ℚ)
            / ((((List.range' x (min (x + step) h - x) 1).flatMap (fun k =>
              (List.range' y (min (y + step) w - y) 1).map
                (fun j => (getPixel g k j).1))).length : ℤ) : ℚ))) = blockAvg g x y step := by
      unfold blockAvg
      simp only [hgw, hgh]
      rw [hcount]
    rw [hP]
  -- conclusions
  refine ⟨by rw [hdef, width_setMany, hw], by rw [hdef, length_setMany, hlen],
    fun r c hr hc => ?_⟩
  have hi : r * w + c < w * h := by
    have hle : (r + 1) * w ≤ h * w := Nat.mul_le_mul_right w (by omega)
    rw [Nat.succ_mul] at hle
    have hcomm : h * w = w * h := Nat.mul_comm h w
    omega
  simp only [getPixel]
  rw [hdef, width_setMany, getFlat_setMany, hw, hlen]
  have hmem : ((r * w + c) ∈ (List.range' x step 1).flatMap (fun k =>
      (List.range' y step 1).flatMap
        (fun j => if k < h ∧ j < w then [k * w + j] else [])))
      ↔ (x ≤ r ∧ r < x + step ∧ y ≤ c ∧ c < y + step) := by
    simp only [List.mem_flatMap, List.mem_range'_1]
    constructor
    · rintro ⟨k, hk, j, hj, hmem2⟩
      rcases Decidable.em (k < h ∧ j < w) with hkj | hkj
      · rw [if_pos hkj] at hmem2
        rcases List.mem_singleton.mp hmem2 with heq
        have hd1 := (flat_decomp w h0 r c hc).1
        have hd2 := (flat_decomp w h0 r c hc).2
        have hd3 := (flat_decomp w h0 k j hkj.2).1
        have hd4 := (flat_decomp w h0 k j hkj.2).2
        rw [heq] at hd1 hd2
        refine ⟨by omega, by omega, by omega, by omega⟩
      · rw [if_neg hkj] at hmem2
        exact absurd hmem2 (List.not_mem_nil _)
    · rintro ⟨h1, h2, h3, h4⟩
      refine ⟨r, ⟨h1, h2⟩, c, ⟨h3, h4⟩, ?_⟩
      rw [if_pos ⟨hr, hc⟩]
      exact List.mem_singleton.mpr rfl
  by_cases hcond : x ≤ r ∧ r < x + step ∧ y ≤ c ∧ c < y + step
  · rw [if_pos ⟨hmem.mpr hcond, hi⟩, if_pos hcond]
  · rw [if_neg (fun hcon => hcond (hmem.mp hcon.1)), if_neg hcond]

theorem flatMap_congr {α β : Type} (F F2 : α → List β) :
    ∀ l : List α, (∀ a ∈ l, F a = F2 a) → l.flatMap F = l.flatMap F2 := by
  intro l
  induction l with
  | nil => intro _; rfl
  | cons a as ih =>
    intro hx
    rw [List.flatMap_cons, List.flatMap_cons, hx a (List.mem_cons_self a as),
      ih (fun b hb => hx b (List.mem_cons_of_mem _ hb))]

theorem blockAvg_congr (g g2 : Image) (x y step : ℕ)
    (hweq : g2.width = g.width) (hleneq : g2.pixels.length = g.pixels.length)
    (hagree : ∀ k j, x ≤ k → k < min (x + step) (getHeight g) → y ≤ j →
      j < min (y + step) (getWidth g) → getPixel g2 k j = getPixel g k j) :
    blockAvg g2 x y step = blockAvg g x y step := by
  have hgh : getHeight g2 = getHeight g := by
    unfold getHeight
    rw [hweq, hleneq]
  have hgw : getWidth g2 = getWidth g := hweq
  have hcells : ∀ (f : RGB → ℤ),
      (List.range' x (min (x + step) (getHeight g) - x) 1).flatMap (fun k =>
        (List.range' y (min (y + step) (getWidth g) - y) 1).map
          (fun j => f (getPixel g2 k j)))
      = (List.range' x (min (x + step) (getHeight g) - x) 1).flatMap (fun k =>
        (List.range' y (min (y + step) (getWidth g) - y) 1).map
          (fun j => f (getPixel g k j))) := by
    intro f
    apply flatMap_congr
    intro k hk
    apply List.map_congr_left
    intro j hj
    rw [List.mem_range'_1] at hk hj
    rw [hagree k j (by omega) (by omega) (by omega) (by omega)]
  unfold blockAvg
  simp only [hgh, hgw]
  rw [hcells (fun p => p.1), hcells (fun p => p.2.1), hcells (fun p => p.2.2)]

theorem corner_div (step c m : ℕ) (hstep : 0 < step)
    (h1 : step * m ≤ c) (h2 : c < step * m + step) : c / step = m := by
  obtain ⟨d, hd, rfl⟩ : ∃ d, d < step ∧ c = step * m + d := ⟨c - step * m, by omega, by omega⟩
  rw [Nat.mul_add_div hstep, Nat.div_eq_of_lt hd, Nat.add_zero]

theorem pixellate_inner (g : Image) (w h x step : ℕ) (hstep : 0 < step) (h0 : 0 < w)
    (hgww : g.width = w) (hglen : g.pixels.length = w * h) :
    ∀ (ys : List ℕ) (cur : Image),
      cur.width = w → cur.pixels.length = w * h →
      (∀ y2 ∈ ys, ∃ m, y2 = step * m) →
      List.Pairwise (fun a b => a ≠ b) ys →
      (∀ r c, r < h → c < w → x ≤ r → r < x + step →
        (∃ y2 ∈ ys, y2 ≤ c ∧ c < y2 + step) → getPixel cur r c = getPixel g r c) →
      ((ys.foldl (fun cur2 y2 => avgRGB cur2 x y2 step) cur).width = w ∧
       (ys.foldl (fun cur2 y2 => avgRGB cur2 x y2 step) cur).pixels.length = w * h ∧
       ∀ r c, r < h → c < w →
         getPixel (ys.foldl (fun cur2 y2 => avgRGB cur2 x y2 step) cur) r c =
           if x ≤ r ∧ r < x + step ∧ (∃ y2 ∈ ys, y2 ≤ c ∧ c < y2 + step)
           then blockAvg g x (step * (c / step)) step
           else getPixel cur r c) := by
  intro ys
  induction ys with
  | nil =>
    intro cur hcw hcl _ _ _
    refine ⟨hcw, hcl, fun r c hr hc => ?_⟩
    rw [if_neg (by rintro ⟨_, _, y2, hy2, _⟩; exact (List.not_mem_nil y2) hy2)]
    rfl
  | cons y ys ih =>
    intro cur hcw hcl hmul hpw hagree
    obtain ⟨hA_w, hA_l, hA_f⟩ := avgRGB_spec cur w h x y step hcw hcl h0
    have hgh : getHeight g = h := by
      unfold getHeight
      rw [hgww, hglen, Nat.mul_div_cancel_left h h0]
    have hcorner : ∀ c, y ≤ c → c < y + step → step * (c / step) = y := by
      intro c h1 h2
      obtain ⟨m, rfl⟩ := hmul y (List.mem_cons_self y ys)
      rw [corner_div step c m hstep (by omega) (by omega)]
    have hval : blockAvg cur x y step = blockAvg g x y step := by
      apply blockAvg_congr g cur x y step (by rw [hcw, hgww]) (by rw [hcl, hglen])
      intro k j hk1 hk2 hj1 hj2
      rw [hgh] at hk2
      rw [show getWidth g = w from hgww] at hj2
      exact hagree k j (by omega) (by omega) (by omega) (by omega)
        ⟨y, List.mem_cons_self y ys, by omega, by omega⟩
    have hagree2 : ∀ r c, r < h → c < w → x ≤ r → r < x + step →
        (∃ y2 ∈ ys, y2 ≤ c ∧ c < y2 + step) →
        getPixel (avgRGB cur x y step) r c = getPixel g r c := by
      rintro r c hr hc hxr hrx ⟨y2, hy2, hy2c⟩
      rw [hA_f r c hr hc]
      by_cases hyc : x ≤ r ∧ r < x + step ∧ y ≤ c ∧ c < y + step
      · exfalso
        have h1 := hcorner c hyc.2.2.1 hyc.2.2.2
        obtain ⟨m2, hm2⟩ := hmul y2 (List.mem_cons_of_mem _ hy2)
        have h2 : step * (c / step) = y2 := by
          rw [corner_div step c m2 hstep (by omega) (by omega)]
          omega
        exact (List.pairwise_cons.mp hpw).1 y2 hy2 (by omega)
      · rw [if_neg hyc]
        exact hagree r c hr hc hxr hrx ⟨y2, List.mem_cons_of_mem _ hy2, hy2c⟩
    obtain ⟨hres_w, hres_l, hres_f⟩ := ih (avgRGB cur x y step) hA_w hA_l
      (fun y2 hy2 => hmul y2 (List.mem_cons_of_mem _ hy2))
      (List.pairwise_cons.mp hpw).2 hagree2
    rw [show ((y :: ys).foldl (fun cur2 y2 => avgRGB cur2 x y2 step) cur)
        = ys.foldl (fun cur2 y2 => avgRGB cur2 x y2 step) (avgRGB cur x y step)
      from by rw [List.foldl_cons]]
    refine ⟨hres_w, hres_l, fun r c hr hc => ?_⟩
    rw [hres_f r c hr hc, hA_f r c hr hc]
    by_cases hC1 : x ≤ r ∧ r < x + step ∧ (∃ y2 ∈ ys, y2 ≤ c ∧ c < y2 + step)
    · have hcons : ∃ y2 ∈ y :: ys, y2 ≤ c ∧ c < y2 + step := by
        obtain ⟨y2, hy2, hy2c⟩ := hC1.2.2
        exact ⟨y2, List.mem_cons_of_mem _ hy2, hy2c⟩
      rw [if_pos hC1, if_pos ⟨hC1.1, hC1.2.1, hcons⟩]
    · rw [if_neg hC1]
      by_cases hC2 : x ≤ r ∧ r < x + step ∧ y ≤ c ∧ c < y + step
      · rw [if_pos ⟨hC2.1, hC2.2.1, hC2.2.2⟩,
          if_pos ⟨hC2.1, hC2.2.1, y, List.mem_cons_self y ys, hC2.2.2.1, hC2.2.2.2⟩,
          hval, hcorner c hC2.2.2.1 hC2.2.2.2]
      · have hneg : ¬(x ≤ r ∧ r < x + step ∧ ∃ y2 ∈ y :: ys, y2 ≤ c ∧ c < y2 + step) := by
          rintro ⟨hx1, hx2, y2, hy2mem, hy2c⟩
          rcases List.mem_cons.mp hy2mem with rfl | hy2tail
          · exact hC2 ⟨hx1, hx2, hy2c.1, hy2c.2⟩
          · exact hC1 ⟨hx1, hx2, y2, hy2tail, hy2c⟩
        rw [if_neg hC2, if_neg hneg]

theorem range'_pairwise_ne (step : ℕ) (hstep : 0 < step) :
    ∀ (n s : ℕ), List.Pairwise (fun a b => a ≠ b) (List.range' s n step) := by
  intro n
  induction n with
  | zero => intro s; exact List.Pairwise.nil
  | succ n ih =>
    intro s
    rw [List.range'_succ]
    refine List.pairwise_cons.mpr ⟨fun a ha => ?_, ih (s + step)⟩
    rw [List.mem_range'] at ha
    obtain ⟨i, _, rfl⟩ := ha
    omega

theorem pixellate_outer (g : Image) (w h step : ℕ) (hstep : 0 < step) (h0 : 0 < w)
    (hgww : g.width = w) (hglen : g.pixels.length = w * h) :
    ∀ (xs : List ℕ) (cur : Image),
      cur.width = w → cur.pixels.length = w * h →
      (∀ x2 ∈ xs, ∃ m, x2 = step * m) →
      List.Pairwise (fun a b => a ≠ b) xs →
      (∀ r c, r < h → c < w →
        (∃ x2 ∈ xs, x2 ≤ r ∧ r < x2 + step) → getPixel cur r c = getPixel g r c) →
      ((xs.foldl (fun cur2 x2 =>
          (List.range' 0 ((w + step - 1) / step) step).foldl
            (fun cur3 y2 => avgRGB cur3 x2 y2 step) cur2) cur).width = w ∧
       (xs.foldl (fun cur2 x2 =>
          (List.range' 0 ((w + step - 1) / step) step).foldl
            (fun cur3 y2 => avgRGB cur3 x2 y2 step) cur2) cur).pixels.length = w * h ∧
       ∀ r c, r < h → c < w →
         getPixel (xs.foldl (fun cur2 x2 =>
            (List.range' 0 ((w + step - 1) / step) step).foldl
              (fun cur3 y2 => avgRGB cur3 x2 y2 step) cur2) cur) r c =
           if (∃ x2 ∈ xs, x2 ≤ r ∧ r < x2 + step) ∧
              (∃ y2 ∈ List.range' 0 ((w + step - 1) / step) step, y2 ≤ c ∧ c < y2 + step)
           then blockAvg g (step * (r / step)) (step * (c / step)) step
           else getPixel cur r c) := by
  intro xs
  induction xs with
  | nil =>
    intro cur hcw hcl _ _ _
    refine ⟨hcw, hcl, fun r c hr hc => ?_⟩
    rw [if_neg (by rintro ⟨⟨x2, hx2, _⟩, _⟩; exact (List.not_mem_nil x2) hx2)]
    rfl
  | cons x xs ih =>
    intro cur hcw hcl hmul hpw hagree
    have hYSmul : ∀ y2 ∈ List.range' 0 ((w + step - 1) / step) step, ∃ m, y2 = step * m := by
      intro y2 hy2
      rw [List.mem_range'] at hy2
      obtain ⟨i, _, rfl⟩ := hy2
      exact ⟨i, by omega⟩
    obtain ⟨hI_w, hI_l, hI_f⟩ := pixellate_inner g w h x step hstep h0 hgww hglen
      (List.range' 0 ((w + step - 1) / step) step) cur hcw hcl hYSmul
      (range'_pairwise_ne step hstep _ _)
      (fun r c hr hc hxr hrx _ =>
        hagree r c hr hc ⟨x, List.mem_cons_self x xs, hxr, hrx⟩)
    have hcornerR : ∀ r, x ≤ r → r < x + step → step * (r / step) = x := by
      intro r h1 h2
      obtain ⟨m, rfl⟩ := hmul x (List.mem_cons_self x xs)
      rw [corner_div step r m hstep (by omega) (by omega)]
    have hagree2 : ∀ r c, r < h → c < w →
        (∃ x2 ∈ xs, x2 ≤ r ∧ r < x2 + step) →
        getPixel ((List.range' 0 ((w + step - 1) / step) step).foldl
          (fun cur3 y2 => avgRGB cur3 x y2 step) cur) r c = getPixel g r c := by
      rintro r c hr hc ⟨x2, hx2, hx2r⟩
      rw [hI_f r c hr hc]
      by_cases hxc : x ≤ r ∧ r < x + step ∧
          (∃ y2 ∈ List.range' 0 ((w + step - 1) / step) step, y2 ≤ c ∧ c < y2 + step)
      · exfalso
        have h1 := hcornerR r hxc.1 hxc.2.1
        obtain ⟨m2, hm2⟩ := hmul x2 (List.mem_cons_of_mem _ hx2)
        have h2 : step * (r / step) = x2 := by
          rw [corner_div step r m2 hstep (by omega) (by omega)]
          omega
        exact (List.pairwise_cons.mp hpw).1 x2 hx2 (by omega)
      · rw [if_neg hxc]
        exact hagree r c hr hc ⟨x2, List.mem_cons_of_mem _ hx2, hx2r⟩
    obtain ⟨hres_w, hres_l, hres_f⟩ := ih
      ((List.range' 0 ((w + step - 1) / step) step).foldl
        (fun cur3 y2 => avgRGB cur3 x y2 step) cur) hI_w hI_l
      (fun x2 hx2 => hmul x2 (List.mem_cons_of_mem _ hx2))
      (List.pairwise_cons.mp hpw).2 hagree2
    rw [show ((x :: xs).foldl (fun cur2 x2 =>
          (List.range' 0 ((w + step - 1) / step) step).foldl
            (fun cur3 y2 => avgRGB cur3 x2 y2 step) cur2) cur)
        = xs.foldl (fun cur2 x2 =>
            (List.range' 0 ((w + step - 1) / step) step).foldl
              (fun cur3 y2 => avgRGB cur3 x2 y2 step) cur2)
            ((List.range' 0 ((w + step - 1) / step) step).foldl
              (fun cur3 y2 => avgRGB cur3 x y2 step) cur)
      from by rw [List.foldl_cons]]
    refine ⟨hres_w, hres_l, fun r c hr hc => ?_⟩
    rw [hres_f r c hr hc, hI_f r c hr hc]
    by_cases hC1 : (∃ x2 ∈ xs, x2 ≤ r ∧ r < x2 + step) ∧
        (∃ y2 ∈ List.range' 0 ((w + step - 1) / step) step, y2 ≤ c ∧ c < y2 + step)
    · have hcons : (∃ x2 ∈ x :: xs, x2 ≤ r ∧ r < x2 + step) ∧
          (∃ y2 ∈ List.range' 0 ((w + step - 1) / step) step, y2 ≤ c ∧ c < y2 + step) := by
        obtain ⟨⟨x2, hx2, hx2r⟩, hy⟩ := hC1
        exact ⟨⟨x2, List.mem_cons_of_mem _ hx2, hx2r⟩, hy⟩
      rw [if_pos hC1, if_pos hcons]
    · rw [if_neg hC1]
      by_cases hC2 : x ≤ r ∧ r < x + step ∧
          (∃ y2 ∈ List.range' 0 ((w + step - 1) / step) step, y2 ≤ c ∧ c < y2 + step)
      · rw [if_pos hC2,
          if_pos ⟨⟨x, List.mem_cons_self x xs, hC2.1, hC2.2.1⟩, hC2.2.2⟩,
          hcornerR r hC2.1 hC2.2.1]
      · have hneg : ¬((∃ x2 ∈ x :: xs, x2 ≤ r ∧ r < x2 + step) ∧
            (∃ y2 ∈ List.range' 0 ((w + step - 1) / step) step, y2 ≤ c ∧ c < y2 + step)) := by
          rintro ⟨⟨x2, hx2mem, hx2r⟩, hy⟩
          rcases List.mem_cons.mp hx2mem with rfl | hx2tail
          · exact hC2 ⟨hx2r.1, hx2r.2, hy⟩
          · exact hC1 ⟨⟨x2, hx2tail, hx2r⟩, hy⟩
        rw [if_neg hC2, if_neg hneg]

theorem corner_mem (n step v : ℕ) (hstep : 0 < step) (hv : v < n) :
    step * (v / step) ∈ List.range' 0 ((n + step - 1) / step) step
      ∧ step * (v / step) ≤ v ∧ v < step * (v / step) + step := by
  have e1 := Nat.div_add_mod v step
  have e2 := Nat.mod_lt v hstep
  refine ⟨?_, by omega, by omega⟩
  rw [List.mem_range']
  refine ⟨v / step, ?_, by omega⟩
  by_contra hcon
  push_neg at hcon
  have h3 : step * ((n + step - 1) / step) ≤ step * (v / step) :=
    Nat.mul_le_mul_left step hcon
  have e3 := Nat.div_add_mod (n + step - 1) step
  have e4 := Nat.mod_lt (n + step - 1) hstep
  omega

/-- C4: `pixellate(step)` partitions the grid into blocks whose top-left corners
sit at row/column multiples of `step` (clipped to the grid at the right/bottom
edges), and sets every pixel to the `int`-truncated per-channel mean over exactly
the in-bounds pixels of its block, each block's average being computed from the
original pixel values — entirely before any pixel of that block is overwritten.
Formally: pixel `(r, c)` of the result is the block average, read from the input
grid, of the block with corner `(step*(r/step), step*(c/step))`. -/
theorem C4_pixellate_block_average (g : Image) (w h step : ℕ) (hw : g.width = w)
    (hlen : g.pixels.length = w * h) (hstep : 0 < step) (h0 : 0 < w) :
    (pixellate g step).width = w ∧ (pixellate g step).pixels.length = w * h ∧
    ∀ r c, r < h → c < w →
      getPixel (pixellate g step) r c
        = blockAvg g (step * (r / step)) (step * (c / step)) step := by
  have hgh : getHeight g = h := by
    unfold getHeight
    rw [hw, hlen, Nat.mul_div_cancel_left h h0]
  have hdef : pixellate g step
      = (List.range' 0 ((h + step - 1) / step) step).foldl
          (fun cur2 x2 =>
            (List.range' 0 ((w + step - 1) / step) step).foldl
              (fun cur3 y2 => avgRGB cur3 x2 y2 step) cur2) g := by
    unfold pixellate
    simp only [hgh, show getWidth g = w from hw]
  obtain ⟨ho_w, ho_l, ho_f⟩ := pixellate_outer g w h step hstep h0 hw hlen
    (List.range' 0 ((h + step - 1) / step) step) g hw hlen
    (by
      intro x2 hx2
      rw [List.mem_range'] at hx2
      obtain ⟨i, _, rfl⟩ := hx2
      exact ⟨i, by omega⟩)
    (range'_pairwise_ne step hstep _ _)
    (fun r c _ _ _ => rfl)
  refine ⟨by rw [hdef]; exact ho_w, by rw [hdef]; exact ho_l, fun r c hr hc => ?_⟩
  obtain ⟨hrmem, hr1, hr2⟩ := corner_mem h step r hstep hr
  obtain ⟨hcmem, hc1, hc2⟩ := corner_mem w step c hstep hc
  rw [hdef, ho_f r c hr hc,
    if_pos ⟨⟨step * (r / step), hrmem, hr1, hr2⟩, ⟨step * (c / step), hcmem, hc1, hc2⟩⟩]

/-- Witness for C4 on a concrete 3×3 grid of distinct pixels with step 2
(blocks of sizes 2×2, 2×1, 1×2 and 1×1, exercising the edge clipping). -/
theorem C4_pixellate_block_average_witness :
    (pixGrid.width = 3 ∧ pixGrid.pixels.length = 3 * 3 ∧ 0 < 2 ∧ 0 < 3) ∧
    ((pixellate pixGrid 2).width = 3 ∧ (pixellate pixGrid 2).pixels.length = 3 * 3 ∧
      ∀ r c, r < 3 → c < 3 →
        getPixel (pixellate pixGrid 2) r c
          = blockAvg pixGrid (2 * (r / 2)) (2 * (c / 2)) 2) :=
  ⟨⟨rfl, rfl, by omega, by omega⟩,
    C4_pixellate_block_average pixGrid 3 3 2 rfl rfl (by omega) (by omega)⟩

/-! ### The encode/decode round trip for nonempty texts

Supporting development for the steganographic codec: a successful `encode` of a
nonempty text whose character codes fit in a byte is decoded back exactly. -/

theorem encodeChannel_mod (c d : ℤ) (hd0 : 0 ≤ d) (hd9 : d ≤ 9) :
    encodeChannel c d % 10 = d := by
  simp only [encodeChannel]
  split_ifs <;> omega

theorem encode_pixel_eq (g : Image) (pos : ℕ) (ascii : ℤ) :
    encode_pixel g pos ascii = setFlatPixel g pos (encodeTriple (getFlatPixel g pos) ascii) :=
  rfl

theorem decode_encodeTriple (rgb : RGB) (ascii : ℤ) (h0 : 0 ≤ ascii) (h255 : ascii ≤ 255) :
    ((encodeTriple rgb ascii).1 % 10) * 100 + ((encodeTriple rgb ascii).2.1 % 10) * 10
      + (encodeTriple rgb ascii).2.2 % 10 = ascii := by
  show (encodeChannel rgb.1 (ascii / 100) % 10) * 100
      + (encodeChannel rgb.2.1 (ascii / 10 % 10) % 10) * 10
      + encodeChannel rgb.2.2 (ascii % 10) % 10 = ascii
  rw [encodeChannel_mod _ _ (by omega) (by omega),
    encodeChannel_mod _ _ (by omega) (by omega),
    encodeChannel_mod _ _ (by omega) (by omega)]
  omega

theorem encode_fold_spec (thelist : List ℤ) (g : Image) (n : ℕ) :
    (((List.range n).foldl (fun cur x => encode_pixel cur x (thelist.getD x 0)) g).width
        = g.width) ∧
    (((List.range n).foldl (fun cur x => encode_pixel cur x (thelist.getD x 0)) g).pixels.length
        = g.pixels.length) ∧
    ∀ i, getFlatPixel
        ((List.range n).foldl (fun cur x => encode_pixel cur x (thelist.getD x 0)) g) i
      = if i < n ∧ i < g.pixels.length
        then encodeTriple (getFlatPixel g i) (thelist.getD i 0)
        else getFlatPixel g i := by
  induction n with
  | zero =>
    refine ⟨rfl, rfl, fun i => ?_⟩
    rw [if_neg (by omega), List.range_zero, List.foldl_nil]
  | succ n ih =>
    obtain ⟨hw, hl, hg⟩ := ih
    rw [List.range_succ, List.foldl_append, List.foldl_cons, List.foldl_nil]
    set R := (List.range n).foldl (fun cur x => encode_pixel cur x (thelist.getD x 0)) g with hR
    have hRn : getFlatPixel R n = getFlatPixel g n := by
      rw [hg n, if_neg (by omega)]
    rw [encode_pixel_eq, hRn]
    refine ⟨by simp [hw], by simp [hl], fun i => ?_⟩
    rw [getFlat_setFlat, hg i, hl]
    by_cases hA : i = n ∧ n < g.pixels.length
    · obtain ⟨rfl, hn⟩ := hA
      rw [if_pos ⟨rfl, hn⟩, if_pos ⟨by omega, hn⟩]
    · rw [if_neg hA]
      by_cases hB : i < n ∧ i < g.pixels.length
      · rw [if_pos hB, if_pos ⟨by omega, hB.2⟩]
      · rw [if_neg hB, if_neg (by omega)]

theorem pixels_to_ASCII_eq_map (g : Image) :
    pixels_to_ASCII g = (List.range (getLength g)).map (fun x => decode_pixel g x) := by
  have h : ∀ (l : List ℕ) (acc : List ℤ × Image),
      (l.foldl (fun acc x => (acc.1 ++ [decode_pixel acc.2 x], acc.2)) acc)
        = (acc.1 ++ l.map (fun x => decode_pixel acc.2 x), acc.2) := by
    intro l
    induction l with
    | nil => intro acc; simp
    | cons a as ih =>
      intro acc
      rw [List.foldl_cons, ih]
      simp
  show (pixels_to_ASCIIS g).1 = _
  unfold pixels_to_ASCIIS
  rw [h]
  simp

theorem decimalCodesAux_mem : ∀ (fuel n : ℕ) (c : ℤ), c ∈ decimalCodesAux fuel n →
    48 ≤ c ∧ c ≤ 57 := by
  intro fuel
  induction fuel with
  | zero => intro n c hc; simp [decimalCodesAux] at hc
  | succ fuel ih =>
    intro n c hc
    simp only [decimalCodesAux] at hc
    by_cases hn : n = 0
    · rw [if_pos hn] at hc
      simp at hc
    · rw [if_neg hn] at hc
      rcases List.mem_append.mp hc with h | h
      · exact ih _ c h
      · rcases List.mem_singleton.mp h with rfl
        omega

theorem decimalDigitCodes_mem (n : ℕ) (c : ℤ) (hc : c ∈ decimalDigitCodes n) :
    48 ≤ c ∧ c ≤ 57 := by
  unfold decimalDigitCodes at hc
  by_cases hn : n = 0
  · rw [if_pos hn] at hc
    rcases List.mem_singleton.mp hc with rfl
    omega
  · rw [if_neg hn] at hc
    exact decimalCodesAux_mem n n c hc

theorem decimalDigitCodes_ne_nil (n : ℕ) : decimalDigitCodes n ≠ [] := by
  unfold decimalDigitCodes
  by_cases hn : n = 0
  · rw [if_pos hn]
    simp
  · rw [if_neg hn]
    obtain ⟨m, rfl⟩ : ∃ m, n = m + 1 := ⟨n - 1, by omega⟩
    simp only [decimalCodesAux]
    rw [if_neg hn]
    simp

theorem decimalCodesAux_length_le : ∀ (fuel n k : ℕ), n ≤ fuel → n < 10 ^ k →
    (decimalCodesAux fuel n).length ≤ k := by
  intro fuel
  induction fuel with
  | zero => intro n k _ _; simp [decimalCodesAux]
  | succ fuel ih =>
    intro n k hn hk
    simp only [decimalCodesAux]
    by_cases h0 : n = 0
    · rw [if_pos h0]
      simp
    · rw [if_neg h0, List.length_append, List.length_singleton]
      have hk1 : 1 ≤ k := by
        by_contra hc
        push_neg at hc
        have hk0 : k = 0 := by omega
        rw [hk0, pow_zero] at hk
        omega
      obtain ⟨k2, rfl⟩ : ∃ k2, k = k2 + 1 := ⟨k - 1, by omega⟩
      have hd : n / 10 < 10 ^ k2 := by
        rw [Nat.div_lt_iff_lt_mul (by omega : 0 < 10)]
        calc n < 10 ^ (k2 + 1) := hk
        _ = 10 ^ k2 * 10 := by ring
      have hfuel : n / 10 ≤ fuel := by
        have := Nat.div_lt_self (by omega : 0 < n) (by omega : 1 < 10)
        omega
      have := ih (n / 10) k2 hfuel hd
      omega

theorem decimalDigitCodes_length_le (n : ℕ) (h : n ≤ 999999) :
    (decimalDigitCodes n).length ≤ 6 := by
  unfold decimalDigitCodes
  by_cases hn : n = 0
  · rw [if_pos hn]
    simp
  · rw [if_neg hn]
    exact decimalCodesAux_length_le n n 6 le_rfl (by norm_num; omega)

theorem decimalCodesAux_foldl : ∀ (fuel n : ℕ) (a : ℤ), n ≤ fuel →
    (decimalCodesAux fuel n).foldl (fun acc d => acc * 10 + (d - 48)) a
      = a * 10 ^ (decimalCodesAux fuel n).length + (n : ℤ) := by
  intro fuel
  induction fuel with
  | zero =>
    intro n a hn
    have h0 : n = 0 := by omega
    subst h0
    simp [decimalCodesAux]
  | succ fuel ih =>
    intro n a hn
    simp only [decimalCodesAux]
    by_cases h0 : n = 0
    · rw [if_pos h0]
      subst h0
      simp
    · rw [if_neg h0, List.foldl_append, List.length_append]
      have hfuel : n / 10 ≤ fuel := by
        have := Nat.div_lt_self (by omega : 0 < n) (by omega : 1 < 10)
        omega
      rw [ih (n / 10) a hfuel]
      simp only [List.foldl_cons, List.foldl_nil, List.length_singleton]
      rw [pow_succ]
      push_cast
      ring_nf
      omega

theorem digitsVal_decimalDigitCodes (n : ℕ) :
    digitsVal ((decimalDigitCodes n).map (fun c => c - 48)) = (n : ℤ) := by
  unfold digitsVal decimalDigitCodes
  rw [List.foldl_map]
  by_cases h0 : n = 0
  · rw [if_pos h0]
    subst h0
    simp
  · rw [if_neg h0, decimalCodesAux_foldl n n 0 le_rfl]
    simp

theorem parseDigitRun_digits : ∀ (l : List ℤ), (∀ c ∈ l, 48 ≤ c ∧ c ≤ 57) →
    parseDigitRun l = some (l.map (fun c => c - 48)) := by
  intro l
  induction l with
  | nil => intro _; rfl
  | cons c rest ih =>
    intro hl
    have hc := hl c (List.mem_cons_self c rest)
    simp only [parseDigitRun]
    rw [if_pos (show isPyDigit c = true by simp only [isPyDigit]; simp; omega),
      ih (fun a ha => hl a (List.mem_cons_of_mem _ ha))]
    rfl

theorem dropWhile_digits (m : List ℤ) (hm : ∀ c ∈ m, 48 ≤ c ∧ c ≤ 57) :
    m.dropWhile isPySpace = m := by
  cases m with
  | nil => rfl
  | cons c rest =>
    have hc := hm c (List.mem_cons_self c rest)
    rw [List.dropWhile_cons,
      if_neg (show ¬isPySpace c = true by simp only [isPySpace]; simp; omega)]

theorem code_to_int_digits (l : List ℤ) (hne : l ≠ []) (hd : ∀ c ∈ l, 48 ≤ c ∧ c ≤ 57) :
    code_to_int l = some (digitsVal (l.map (fun c => c - 48))) := by
  obtain ⟨c, rest, rfl⟩ := List.exists_cons_of_ne_nil hne
  have hstrip : ((((c :: rest).dropWhile isPySpace).reverse.dropWhile isPySpace)).reverse
      = c :: rest := by
    rw [dropWhile_digits _ hd,
      dropWhile_digits _ (fun a ha => hd a (List.mem_reverse.mp ha)),
      List.reverse_reverse]
  have hc := hd c (List.mem_cons_self c rest)
  simp only [code_to_int, hstrip]
  rw [if_neg (by omega : ¬c = 43), if_neg (by omega : ¬c = 45)]
  simp only
  rw [if_pos (show isPyDigit c = true by simp only [isPyDigit]; simp; omega),
    parseDigitRun_digits _ hd]
  simp

theorem findIdx?_digits_marker : ∀ (D : List ℤ), (∀ d ∈ D, ¬(d = 126)) →
    ∀ (rest : List ℤ) (i : ℕ),
      List.findIdx? (fun d => d = (126 : ℤ)) (D ++ 126 :: rest) i = some (i + D.length) := by
  intro D
  induction D with
  | nil =>
    intro _ rest i
    rw [List.nil_append, List.findIdx?_cons, if_pos (by simp)]
    simp
  | cons d D ih =>
    intro hD rest i
    rw [List.cons_append, List.findIdx?_cons,
      if_neg (by simp only [decide_eq_true_eq]; exact hD d (List.mem_cons_self d D)),
      ih (fun a ha => hD a (List.mem_cons_of_mem _ ha)) rest (i + 1)]
    congr 1
    simp [List.length_cons]
    omega

theorem isMarker_frame (n : ℕ) (T tail : List ℤ) (hn : 0 < n)
    (hlen6 : (decimalDigitCodes n).length ≤ 6) :
    isMarker ([125, 126] ++ decimalDigitCodes n ++ [126, 123] ++ T ++ tail) = .ok true := by
  set D := decimalDigitCodes n with hD
  have hDd : ∀ c ∈ D, 48 ≤ c ∧ c ≤ 57 := fun c hc => decimalDigitCodes_mem n c hc
  have hDne : D ≠ [] := decimalDigitCodes_ne_nil n
  have hD126 : ∀ d ∈ D, ¬(d = 126) := fun d hd => by have := hDd d hd; omega
  have hshape : ([125, 126] ++ D ++ [126, 123] ++ T ++ tail : List ℤ)
      = [125, 126] ++ (D ++ ([126, 123] ++ (T ++ tail))) := by
    simp [List.append_assoc]
  have hascii : is_ASCII ([125, 126] ++ D ++ [126, 123] ++ T ++ tail) = some true := by
    rw [hshape]; rfl
  have htake : ([125, 126] ++ D ++ [126, 123] ++ T ++ tail).take 2 = [125, 126] := by
    rw [hshape]; rfl
  have hdrop2 : ([125, 126] ++ D ++ [126, 123] ++ T ++ tail).drop 2
      = D ++ 126 :: 123 :: (T ++ tail) := by
    rw [hshape, show (2 : ℕ) = ([(125 : ℤ), 126]).length from rfl, List.drop_left]
    rfl
  have htransD : translate_ASCII D = .ok D := by
    obtain ⟨c, rest, hcons⟩ := List.exists_cons_of_ne_nil hDne
    have hc := hDd c (by rw [hcons]; exact List.mem_cons_self c rest)
    unfold translate_ASCII
    rw [if_pos (by rw [hcons]; show is_ASCII (c :: rest) = some true; unfold is_ASCII; simp; omega)]
  have hcti : code_to_int D = some (n : ℤ) := by
    rw [code_to_int_digits D hDne hDd, digitsVal_decimalDigitCodes]
  have hidx : ([125, 126] ++ D ++ [126, 123] ++ T ++ tail)[0 + D.length + 2 + 1]?
      = some 123 := by
    rw [hshape, List.getElem?_append_right (by simp)]
    rw [show ([(125 : ℤ), 126]).length = 2 from rfl,
      show 0 + D.length + 2 + 1 - 2 = D.length + 1 from by omega,
      List.getElem?_append_right (by omega),
      show D.length + 1 - D.length = 1 from by omega]
    simp
  unfold isMarker
  rw [if_neg (by rw [hascii]; simp), if_neg (by rw [htake]; simp),
    hdrop2, findIdx?_digits_marker D hD126 (123 :: (T ++ tail)) 0]
  simp only
  rw [hidx]
  simp only
  rw [if_neg (by simp),
    show 0 + D.length + 2 - 2 = D.length from by omega,
    List.take_left, if_neg (by omega), htransD]
  simp only
  rw [hcti]
  simp only
  rw [if_neg (by omega : ¬(n : ℤ) = 0)]

theorem getLengthCode_frame (n : ℕ) (T tail : List ℤ) :
    getLengthCode ([125, 126] ++ decimalDigitCodes n ++ [126, 123] ++ T ++ tail)
      = .ok (some (n : ℤ)) := by
  set D := decimalDigitCodes n with hD
  have hDd : ∀ c ∈ D, 48 ≤ c ∧ c ≤ 57 := fun c hc => decimalDigitCodes_mem n c hc
  have hDne : D ≠ [] := decimalDigitCodes_ne_nil n
  have hD126 : ∀ d ∈ D, ¬(d = 126) := fun d hd => by have := hDd d hd; omega
  have hshape : ([125, 126] ++ D ++ [126, 123] ++ T ++ tail : List ℤ)
      = [125, 126] ++ (D ++ ([126, 123] ++ (T ++ tail))) := by
    simp [List.append_assoc]
  have hascii : is_ASCII ([125, 126] ++ D ++ [126, 123] ++ T ++ tail) = some true := by
    rw [hshape]; rfl
  have hdrop2 : ([125, 126] ++ D ++ [126, 123] ++ T ++ tail).drop 2
      = D ++ 126 :: 123 :: (T ++ tail) := by
    rw [hshape, show (2 : ℕ) = ([(125 : ℤ), 126]).length from rfl, List.drop_left]
    rfl
  have htransD : translate_ASCII D = .ok D := by
    obtain ⟨c, rest, hcons⟩ := List.exists_cons_of_ne_nil hDne
    have hc := hDd c (by rw [hcons]; exact List.mem_cons_self c rest)
    unfold translate_ASCII
    rw [if_pos (by rw [hcons]; show is_ASCII (c :: rest) = some true; unfold is_ASCII; simp; omega)]
  have hcti : code_to_int D = some (n : ℤ) := by
    rw [code_to_int_digits D hDne hDd, digitsVal_decimalDigitCodes]
  unfold getLengthCode
  rw [if_neg (by rw [hascii]; simp), hdrop2,
    findIdx?_digits_marker D hD126 (123 :: (T ++ tail)) 0]
  simp only
  rw [show (0 + D.length) = D.length from by omega, List.take_left, htransD]
  simp only
  rw [hcti]

theorem decodeFromCodes_frame (n : ℕ) (T tail : List ℤ)
    (hn : 0 < n) (hlen6 : (decimalDigitCodes n).length ≤ 6)
    (hT : T.length = n) (hTne : T ≠ [])
    (hTcodes : ∀ a ∈ T, 0 ≤ a ∧ a ≤ 255) :
    decodeFromCodes ([125, 126] ++ decimalDigitCodes n ++ [126, 123] ++ T ++ tail)
      = .ok (some T) := by
  set D := decimalDigitCodes n with hD
  have hstrlen : pyStrLen (some (n : ℤ)) = D.length := by
    show intStrLen (n : ℤ) = D.length
    unfold intStrLen
    rw [if_neg (by omega : ¬(n : ℤ) < 0), Int.toNat_natCast]
  have htransT : translate_ASCII T = .ok T := by
    obtain ⟨c, rest, hcons⟩ := List.exists_cons_of_ne_nil hTne
    have hc := hTcodes c (by rw [hcons]; exact List.mem_cons_self c rest)
    unfold translate_ASCII
    rw [if_pos (by rw [hcons]; show is_ASCII (c :: rest) = some true; unfold is_ASCII; simp; omega)]
  have hb : (((4 + D.length : ℕ) : ℤ) + (n : ℤ)).toNat = 4 + D.length + n := by omega
  have hslice : pySlice ([125, 126] ++ D ++ [126, 123] ++ T ++ tail) (4 + D.length)
      (((4 + D.length : ℕ) : ℤ) + (n : ℤ)) = T := by
    simp only [pySlice]
    rw [if_neg (by omega : ¬(((4 + D.length : ℕ) : ℤ) + (n : ℤ) < 0)), hb,
      show 4 + D.length + n = (([(125 : ℤ), 126] ++ D ++ [126, 123]) ++ T).length from
        by simp; omega,
      List.take_left,
      show 4 + D.length = ([(125 : ℤ), 126] ++ D ++ [126, 123]).length from by simp; omega,
      List.drop_left]
  unfold decodeFromCodes
  rw [isMarker_frame n T tail hn hlen6, getLengthCode_frame n T tail]
  simp only
  rw [hstrlen, hslice, htransT]

theorem encode_decode_roundtrip (g : Image) (text : List ℤ)
    (hne : text ≠ [])
    (hcodes : ∀ a ∈ text, 0 ≤ a ∧ a ≤ 255)
    (hlen999 : text.length ≤ 999999)
    (hfit : (decimalDigitCodes text.length).length + 4 + text.length ≤ getLength g) :
    (encode g text).1 = true ∧ decode (encode g text).2 = .ok (some text) := by
  set D := decimalDigitCodes text.length with hD
  set full : List ℤ := [125, 126] ++ D ++ [126, 123] ++ text with hfull
  have hfulllen : full.length = D.length + 4 + text.length := by
    rw [hfull]
    simp
    omega
  have hfull_le : full.length ≤ getLength g := by
    rw [hfulllen]
    exact hfit
  have hfullmem : ∀ a ∈ full, 0 ≤ a ∧ a ≤ 255 := by
    intro a ha
    rw [hfull] at ha
    rcases List.mem_append.mp ha with h1 | h1
    · rcases List.mem_append.mp h1 with h2 | h2
      · rcases List.mem_append.mp h2 with h3 | h3
        · simp at h3
          rcases h3 with rfl | rfl <;> omega
        · have := decimalDigitCodes_mem text.length a h3
          omega
      · simp at h2
        rcases h2 with rfl | rfl <;> omega
    · exact hcodes a h1
  have hE : encode g text = (true, ASCII_encode g full) := by
    simp only [encode]
    rw [if_neg (by omega : ¬text.length > 999999),
      if_neg (show ¬(decimalDigitCodes text.length).length + 4 + text.length > getLength g by
        rw [← hD]; omega)]
  have hGdef : ASCII_encode g full
      = (List.range full.length).foldl (fun cur x => encode_pixel cur x (full.getD x 0)) g :=
    rfl
  obtain ⟨hw, hl, hg⟩ := encode_fold_spec full g full.length
  rw [← hGdef] at hw hl hg
  set G := ASCII_encode g full with hG
  have hGlen : getLength G = getLength g := hl
  have hdec : ∀ i, i < full.length → decode_pixel G i = full.getD i 0 := by
    intro i hi
    have hib : i < g.pixels.length := lt_of_lt_of_le hi hfull_le
    have hmem : full.getD i 0 ∈ full := by
      rw [List.getD_eq_getElem full 0 hi]
      exact List.getElem_mem hi
    have hbound := hfullmem _ hmem
    show (getFlatPixel G i).1 % 10 * 100 + (getFlatPixel G i).2.1 % 10 * 10
        + (getFlatPixel G i).2.2 % 10 = full.getD i 0
    rw [hg i, if_pos ⟨hi, hib⟩]
    exact decode_encodeTriple _ _ hbound.1 hbound.2
  obtain ⟨rest, hscan⟩ : ∃ rest, pixels_to_ASCII G = full ++ rest := by
    refine ⟨((List.range (getLength g - full.length)).map (fun x => full.length + x)).map
      (fun x => decode_pixel G x), ?_⟩
    rw [pixels_to_ASCII_eq_map, hGlen]
    nth_rewrite 1 [show getLength g = full.length + (getLength g - full.length) from by omega]
    rw [List.range_add, List.map_append]
    congr 1
    apply List.ext_getElem (by simp)
    intro i h1 h2
    simp only [List.getElem_map, List.getElem_range]
    rw [hdec i (by simpa using h1)]
    exact List.getD_eq_getElem full 0 h2
  constructor
  · rw [hE]
  · rw [hE]
    show decodeFromCodes (pixels_to_ASCII G) = .ok (some text)
    rw [hscan, hfull, hD]
    exact decodeFromCodes_frame text.length text rest (List.length_pos.mpr hne)
      (decimalDigitCodes_length_le text.length hlen999) rfl hne hcodes

end Imager
